import Mathlib

/-!
Verification of the step-wise algorithm visualizer (main.js, script.js and the
part_000 variant).  Every definition below is a shallow embedding of the
corresponding JavaScript source:

* `lcgNext`, `lcgInt` — the `SeededRNG` class shared by main.js and part_000
  (a 32-bit LCG; `random()` returns `state / 2^32`, and
  `int(min,max) = Math.floor(min + random()*(max-min+1))`, which is exact in
  IEEE doubles for the ranges used, so it equals
  `min + state*(max-min+1) / 2^32` over the integers).
* `m32Core`, `m32Next` — the `mulberry32` generator of script.js, computed on
  32-bit patterns (`Nat` values reduced `% 2^32`; `Math.imul` is a product
  `% 2^32`, the JS `^ | >>>` operators act on the same bit patterns).
* state machines for the steppers the claims cite, one structure per stepper,
  with a `step` function translated branch-for-branch from the source.
-/

namespace AlgoViz

/-! ## Seeded random sources -/

/-- One update of the main.js and part_000 `SeededRNG` linear congruential
generator: `state = (state * 1664525 + 1013904223) % 2^32`. -/
def lcgNext (st : Nat) : Nat := (st * 1664525 + 1013904223) % 2 ^ 32

/-- The `rng.int(min, max)` call of main.js and part_000: it advances the state
and returns `Math.floor(min + (state / 2^32) * (max - min + 1))`, which over
the integers is `min + state * (max - min + 1) / 2^32`.  Result is the pair
(new state, drawn integer). -/
def lcgInt (st mn mx : Nat) : Nat × Nat :=
  let st' := lcgNext st
  (st', mn + st' * (mx + 1 - mn) / 2 ^ 32)

/-- Dataset of `SortingAlgorithm.init` in main.js:
`Array.from({length: size}, () => rng.int(1, 100))` where the RNG was freshly
constructed from the seed (so its state starts at `seed`). -/
def mainSortArray : Nat → Nat → List Nat
  | _, 0 => []
  | st, n + 1 =>
    let p := lcgInt st 1 100
    p.2 :: mainSortArray p.1 n

/-- One output of the script.js `mulberry32` generator from the (unbounded)
accumulator value `a`, as the 32-bit pattern of the returned
`(t ^ (t >>> 14)) >>> 0`. -/
def m32Core (a : Nat) : Nat :=
  let A := a % 2 ^ 32
  let t1 := ((A ^^^ (A >>> 15)) * (A ||| 1)) % 2 ^ 32
  let u := ((t1 ^^^ (t1 >>> 7)) * (t1 ||| 61)) % 2 ^ 32
  let t2 := t1 ^^^ ((t1 + u) % 2 ^ 32)
  (t2 ^^^ (t2 >>> 14)) % 2 ^ 32

/-- One call of a script.js `rndSeeded(seed)` closure: the accumulator is
incremented by `0x6D2B79F5` (plain JS addition, exact in doubles for the call
counts that occur) and the mulberry32 pipeline produces the output pattern.
Returns (new accumulator, output numerator); the JS float returned is
(output numerator) / 2^32. -/
def m32Next (a : Nat) : Nat × Nat :=
  let a' := a + 0x6D2B79F5
  (a', m32Core a')

/-- script.js `Data.array(n, rng)`: n values `1 + Math.floor(rng()*99)`,
exact as `1 + v*99/2^32`. -/
def dataArray : Nat → Nat → List Nat × Nat
  | 0, a => ([], a)
  | n + 1, a =>
    let p := m32Next a
    let rest := dataArray n p.1
    ((1 + p.2 * 99 / 2 ^ 32) :: rest.1, rest.2)

/-! ## Generic step iteration -/

/-- Calling `step()` k times in sequence. -/
def stepN {α : Type} (step : α → α) : Nat → α → α
  | 0, s => s
  | k + 1, s => stepN step k (step s)

theorem stepN_succ {α : Type} (step : α → α) (k : Nat) (s : α) :
    stepN step (k + 1) s = stepN step k (step s) := rfl

theorem stepN_fix {α : Type} {step : α → α} {s : α} (h : step s = s) :
    ∀ k, stepN step k s = s
  | 0 => rfl
  | k + 1 => by rw [stepN_succ, h, stepN_fix h k]

/-! ## Shared small helpers for the array steppers -/

/-- JS `highlights[k] = color` on the highlight object, modelled as an
association list keyed by index (later writes shadow earlier ones). -/
def hset (h : List (Nat × String)) (k : Nat) (c : String) : List (Nat × String) :=
  (k, c) :: h.filter (fun p => p.1 != k)

/-- JS comparison `arr[j] > arr[j+1]` where an out-of-range access yields
`undefined` and any comparison against `undefined` is false. -/
def jsGt (x y : Option Nat) : Bool :=
  match x, y with
  | some a, some b => decide (b < a)
  | _, _ => false

/-- JS comparison `a < b` with `undefined` on either side yielding false. -/
def jsLt (x y : Option Nat) : Bool :=
  match x, y with
  | some a, some b => decide (a < b)
  | _, _ => false

/-- Adjacent swap `[arr[j], arr[j+1]] = [arr[j+1], arr[j]]` (only ever executed
with both indices in range, since the guarding comparison is false on
`undefined`). -/
def swapAdj : List Nat → Nat → List Nat
  | [], _ => []
  | [a], _ => [a]
  | a :: b :: t, 0 => b :: a :: t
  | a :: b :: t, n + 1 => a :: swapAdj (b :: t) n

theorem swapAdj_length : ∀ (l : List Nat) (j : Nat), (swapAdj l j).length = l.length
  | [], _ => rfl
  | [_], _ => rfl
  | _ :: _ :: _, 0 => rfl
  | a :: b :: t, n + 1 => by
    simp [swapAdj, swapAdj_length (b :: t) n]

theorem swapAdj_perm : ∀ (l : List Nat) (j : Nat), (swapAdj l j).Perm l
  | [], _ => .refl _
  | [_], _ => .refl _
  | a :: b :: t, 0 => .swap a b t
  | a :: b :: t, n + 1 => .cons a (swapAdj_perm (b :: t) n)

theorem swapAdj_get?_self :
    ∀ {l : List Nat} {j : Nat}, j + 1 < l.length →
      (swapAdj l j).get? j = l.get? (j + 1)
  | [], _, h => by simp at h
  | [_], _, h => by simp at h
  | _ :: _ :: _, 0, _ => rfl
  | a :: b :: t, n + 1, h => by
    have := @swapAdj_get?_self (b :: t) n (by simpa using h)
    simpa [swapAdj] using this

theorem swapAdj_get?_succ :
    ∀ {l : List Nat} {j : Nat}, j + 1 < l.length →
      (swapAdj l j).get? (j + 1) = l.get? j
  | [], _, h => by simp at h
  | [_], _, h => by simp at h
  | _ :: _ :: _, 0, _ => rfl
  | a :: b :: t, n + 1, h => by
    have := @swapAdj_get?_succ (b :: t) n (by simpa using h)
    simpa [swapAdj] using this

theorem swapAdj_get?_other :
    ∀ {l : List Nat} {j : Nat} (p : Nat), p ≠ j → p ≠ j + 1 →
      (swapAdj l j).get? p = l.get? p
  | [], _, _, _, _ => rfl
  | [_], _, _, _, _ => rfl
  | _ :: _ :: _, 0, 0, h1, _ => absurd rfl h1
  | _ :: _ :: _, 0, 1, _, h2 => absurd rfl h2
  | _ :: _ :: _, 0, _ + 2, _, _ => rfl
  | _ :: _ :: _, _ + 1, 0, _, _ => rfl
  | a :: b :: t, n + 1, q + 1, h1, h2 => by
    have := @swapAdj_get?_other (b :: t) n q (by omega) (by omega)
    simpa [swapAdj] using this

/-! ## main.js BubbleSort stepper -/

/-- Stats object of main.js `SortingAlgorithm`. -/
structure SortStats where
  comparisons : Nat
  swaps : Nat
  accesses : Nat
  steps : Nat
deriving Repr, DecidableEq

/-- Zeroed stats, as set by `init`. -/
def SortStats.zero : SortStats := ⟨0, 0, 0, 0⟩

/-- State of the main.js `BubbleSort` stepper. -/
structure MBubble where
  arr : List Nat
  i : Nat
  j : Nat
  done : Bool
  stats : SortStats
  highlights : List (Nat × String)
deriving Repr, DecidableEq

/-- main.js `BubbleSort.init` applied to an already-generated dataset. -/
def mBubbleInitArr (arr : List Nat) : MBubble :=
  { arr := arr, i := 0, j := 0, done := false,
    stats := SortStats.zero, highlights := [] }

/-- main.js `BubbleSort.init(seed, size)`. -/
def mBubbleInit (seed size : Nat) : MBubble :=
  mBubbleInitArr (mainSortArray seed size)

/-- main.js `BubbleSort.step`, translated branch for branch.  In JS the guard
`i >= n - 1` compares against `-1` when `n = 0` and is then true; with `Nat`
truncation `n - 1 = 0` and the guard is also true, so behaviour agrees. -/
def mBubbleStep (s : MBubble) : MBubble :=
  if s.done then s else
  let s1 : MBubble := { s with stats := { s.stats with steps := s.stats.steps + 1 } }
  let n := s1.arr.length
  if n - 1 ≤ s1.i then
    { s1 with done := true }
  else
    let h2 := hset (hset s1.highlights s1.j "#ff6b6b") (s1.j + 1) "#ff6b6b"
    let st2 := { s1.stats with comparisons := s1.stats.comparisons + 1, accesses := s1.stats.accesses + 2 }
    let s2 : MBubble := { s1 with highlights := h2, stats := st2 }
    let s3 : MBubble :=
      if jsGt (s2.arr.get? s2.j) (s2.arr.get? (s2.j + 1)) then
        let h3 := hset (hset s2.highlights s2.j "#4ecdc4") (s2.j + 1) "#4ecdc4"
        { s2 with arr := swapAdj s2.arr s2.j, stats := { s2.stats with swaps := s2.stats.swaps + 1 }, highlights := h3 }
      else s2
    let j' := s3.j + 1
    if n - 1 - s3.i ≤ j' then
      { s3 with highlights := hset s3.highlights (n - 1 - s3.i) "#45b7d1", j := 0, i := s3.i + 1 }
    else
      { s3 with j := j' }

theorem mBubbleStep_done {s : MBubble} (h : s.done = true) : mBubbleStep s = s := by
  simp [mBubbleStep, h]

/-- Value at an index, with the (never relevant, guarded) default 0. -/
def nth (l : List Nat) (p : Nat) : Nat := (l.get? p).getD 0

theorem nth_of_get? {l : List Nat} {p x : Nat} (h : l.get? p = some x) : nth l p = x := by
  unfold nth; rw [h]; rfl

theorem get?_eq_some_nth {l : List Nat} {p : Nat} (h : p < l.length) :
    l.get? p = some (nth l p) := by
  unfold nth; rw [List.get?_eq_get h]; rfl

/-- The comparison branch of one bubble step: the array after the conditional
adjacent swap at position j. -/
def bubArr (arr : List Nat) (j : Nat) : List Nat :=
  if jsGt (arr.get? j) (arr.get? (j + 1)) then swapAdj arr j else arr

theorem bubArr_length (arr : List Nat) (j : Nat) : (bubArr arr j).length = arr.length := by
  unfold bubArr; split <;> simp [swapAdj_length]

theorem bubArr_perm (arr : List Nat) (j : Nat) : (bubArr arr j).Perm arr := by
  unfold bubArr; split
  · exact swapAdj_perm arr j
  · exact .refl _

theorem bubArr_nth_other {arr : List Nat} {j : Nat} (p : Nat)
    (h1 : p ≠ j) (h2 : p ≠ j + 1) : nth (bubArr arr j) p = nth arr p := by
  unfold bubArr; split
  · unfold nth; rw [swapAdj_get?_other p h1 h2]
  · rfl

theorem bubArr_nth_hi {arr : List Nat} {j : Nat} (h : j + 1 < arr.length) :
    nth (bubArr arr j) (j + 1) = max (nth arr j) (nth arr (j + 1)) := by
  have hj : arr.get? j = some (nth arr j) := get?_eq_some_nth (by omega)
  have hj1 : arr.get? (j + 1) = some (nth arr (j + 1)) := get?_eq_some_nth h
  unfold bubArr
  rw [hj, hj1]
  by_cases hc : nth arr (j + 1) < nth arr j
  · rw [if_pos (by simp [jsGt, hc])]
    have := @swapAdj_get?_succ arr j h
    rw [nth_of_get? (this.trans hj)]
    omega
  · rw [if_neg (by simp [jsGt]; omega)]
    omega

theorem bubArr_nth_lo {arr : List Nat} {j : Nat} (h : j + 1 < arr.length) :
    nth (bubArr arr j) j = min (nth arr j) (nth arr (j + 1)) := by
  have hj : arr.get? j = some (nth arr j) := get?_eq_some_nth (by omega)
  have hj1 : arr.get? (j + 1) = some (nth arr (j + 1)) := get?_eq_some_nth h
  unfold bubArr
  rw [hj, hj1]
  by_cases hc : nth arr (j + 1) < nth arr j
  · rw [if_pos (by simp [jsGt, hc])]
    have := @swapAdj_get?_self arr j h
    rw [nth_of_get? (this.trans hj1)]
    omega
  · rw [if_neg (by simp [jsGt]; omega)]
    omega

/-- Sorted-suffix invariant of the bubble machine: every index at or beyond m
is in its final sorted place and dominates the whole prefix. -/
def sufSorted (l : List Nat) (m : Nat) : Prop :=
  (∀ q, m ≤ q → q + 1 < l.length → nth l q ≤ nth l (q + 1)) ∧
  (∀ p q, p < m → m ≤ q → q < l.length → nth l p ≤ nth l q)

/-- Run-time invariant of the main.js bubble machine. -/
def bubbleInv (s : MBubble) : Prop :=
  s.i ≤ s.arr.length - 1 ∧
  (s.i < s.arr.length - 1 → s.j + 1 ≤ s.arr.length - 1 - s.i) ∧
  (s.i < s.arr.length - 1 → ∀ p, p < s.j → nth s.arr p ≤ nth s.arr s.j) ∧
  sufSorted s.arr (s.arr.length - s.i) ∧
  (s.done = true → s.arr.length - 1 ≤ s.i)

theorem bubbleInv_init (arr : List Nat) : bubbleInv (mBubbleInitArr arr) := by
  refine ⟨Nat.zero_le _, ?_, ?_, ⟨?_, ?_⟩, ?_⟩ <;>
    simp [mBubbleInitArr] <;> omega

theorem mBubbleStep_finish {s : MBubble} (h : s.done = false)
    (hi : s.arr.length - 1 ≤ s.i) :
    (mBubbleStep s).arr = s.arr ∧ (mBubbleStep s).done = true ∧
    (mBubbleStep s).i = s.i ∧ (mBubbleStep s).j = s.j ∧
    (mBubbleStep s).stats.steps = s.stats.steps + 1 := by
  have hd : ¬ (s.done = true) := by simp [h]
  simp only [mBubbleStep, if_neg hd, if_pos hi]
  refine ⟨?_, ?_, ?_, ?_, ?_⟩ <;> trivial

theorem mBubbleStep_char {s : MBubble} (h : s.done = false)
    (hi : s.i < s.arr.length - 1) :
    (mBubbleStep s).arr = bubArr s.arr s.j ∧
    (mBubbleStep s).done = false ∧
    (mBubbleStep s).stats.steps = s.stats.steps + 1 ∧
    (s.arr.length - 1 - s.i ≤ s.j + 1 →
        (mBubbleStep s).i = s.i + 1 ∧ (mBubbleStep s).j = 0) ∧
    (¬ (s.arr.length - 1 - s.i ≤ s.j + 1) →
        (mBubbleStep s).i = s.i ∧ (mBubbleStep s).j = s.j + 1) := by
  have hd : ¬ (s.done = true) := by simp [h]
  have hg : ¬ (s.arr.length - 1 ≤ s.i) := by omega
  simp only [mBubbleStep, if_neg hd, if_neg hg, bubArr]
  by_cases hc : jsGt (s.arr.get? s.j) (s.arr.get? (s.j + 1)) = true
  · simp only [if_pos hc]
    by_cases hb : s.arr.length - 1 - s.i ≤ s.j + 1
    · simp only [if_pos hb]
      refine ⟨?_, ?_, ?_, fun _ => ⟨?_, ?_⟩, fun hn => absurd hb hn⟩ <;> trivial
    · simp only [if_neg hb]
      refine ⟨?_, ?_, ?_, fun hb' => absurd hb' hb, fun _ => ⟨?_, ?_⟩⟩ <;> trivial
  · simp only [if_neg hc]
    by_cases hb : s.arr.length - 1 - s.i ≤ s.j + 1
    · simp only [if_pos hb]
      refine ⟨?_, ?_, ?_, fun _ => ⟨?_, ?_⟩, fun hn => absurd hb hn⟩ <;> trivial
    · simp only [if_neg hb]
      refine ⟨?_, ?_, ?_, fun hb' => absurd hb' hb, fun _ => ⟨?_, ?_⟩⟩ <;> trivial

theorem bubArr_prefmax {arr : List Nat} {j : Nat} (hj : j + 1 < arr.length)
    (hp : ∀ p, p < j → nth arr p ≤ nth arr j) :
    ∀ p, p < j + 1 → nth (bubArr arr j) p ≤ nth (bubArr arr j) (j + 1) := by
  intro p hlt
  rw [bubArr_nth_hi hj]
  by_cases hpj : p = j
  · subst hpj
    rw [bubArr_nth_lo hj]
    exact le_trans (min_le_left _ _) (le_max_left _ _)
  · have h1 : p < j := by omega
    rw [bubArr_nth_other p hpj (by omega)]
    exact le_trans (hp p h1) (le_max_left _ _)

theorem bubArr_sufSorted_mid {arr : List Nat} {j m : Nat} (hj : j + 1 < m)
    (hm : m ≤ arr.length) (hs : sufSorted arr m) : sufSorted (bubArr arr j) m := by
  constructor
  · intro q hq hlen
    rw [bubArr_length] at hlen
    rw [bubArr_nth_other q (by omega) (by omega),
        bubArr_nth_other (q + 1) (by omega) (by omega)]
    exact hs.1 q hq hlen
  · intro p q hp hq hlen
    rw [bubArr_length] at hlen
    have hjlen : j + 1 < arr.length := by omega
    rw [bubArr_nth_other q (by omega) (by omega)]
    by_cases hpj : p = j
    · subst hpj
      rw [bubArr_nth_lo hjlen]
      exact le_trans (min_le_left _ _) (hs.2 _ q (by omega) hq hlen)
    · by_cases hpj1 : p = j + 1
      · subst hpj1
        rw [bubArr_nth_hi hjlen]
        exact max_le (hs.2 _ q (by omega) hq hlen) (hs.2 _ q hp hq hlen)
      · rw [bubArr_nth_other p hpj hpj1]
        exact hs.2 p q hp hq hlen

theorem bubArr_sufSorted_wrap {arr : List Nat} {j : Nat}
    (hm : j + 2 ≤ arr.length) (hs : sufSorted arr (j + 2))
    (hp : ∀ p, p < j → nth arr p ≤ nth arr j) :
    sufSorted (bubArr arr j) (j + 1) := by
  have hjlen : j + 1 < arr.length := by omega
  have hpre := bubArr_prefmax hjlen hp
  constructor
  · intro q hq hlen
    rw [bubArr_length] at hlen
    by_cases hq1 : q = j + 1
    · subst hq1
      rw [bubArr_nth_hi hjlen, bubArr_nth_other (j + 1 + 1) (by omega) (by omega)]
      exact max_le (hs.2 j (j + 2) (by omega) (le_refl _) hlen)
        (hs.2 (j + 1) (j + 2) (by omega) (le_refl _) hlen)
    · rw [bubArr_nth_other q (by omega) (by omega),
          bubArr_nth_other (q + 1) (by omega) (by omega)]
      exact hs.1 q (by omega) hlen
  · intro p q hp' hq hlen
    rw [bubArr_length] at hlen
    by_cases hq1 : q = j + 1
    · subst hq1
      exact hpre p hp'
    · have hq2 : j + 2 ≤ q := by omega
      rw [bubArr_nth_other q (by omega) (by omega)]
      by_cases hpj : p = j
      · subst hpj
        rw [bubArr_nth_lo hjlen]
        exact le_trans (min_le_left _ _) (hs.2 _ q (by omega) hq2 hlen)
      · rw [bubArr_nth_other p hpj (by omega)]
        exact hs.2 p q (by omega) hq2 hlen

theorem bubbleInv_step {s : MBubble} (hs : bubbleInv s) : bubbleInv (mBubbleStep s) := by
  by_cases hdone : s.done = true
  · rw [mBubbleStep_done hdone]; exact hs
  · have h : s.done = false := by
      cases hb : s.done with
      | true => exact absurd hb hdone
      | false => rfl
    obtain ⟨h1, h2, h3, h4, _⟩ := hs
    by_cases hi : s.arr.length - 1 ≤ s.i
    · obtain ⟨ha, hd2, hi2, hj2, _⟩ := mBubbleStep_finish h hi
      unfold bubbleInv
      rw [ha, hd2, hi2, hj2]
      exact ⟨h1, (fun hc => h2 hc), (fun hc => h3 hc), h4, fun _ => hi⟩
    · have hi' : s.i < s.arr.length - 1 := by omega
      obtain ⟨ha, hd2, _, hwrap, hmid⟩ := mBubbleStep_char h hi'
      have hjb := h2 hi'
      have hjlen : s.j + 1 < s.arr.length := by omega
      have hlen : (mBubbleStep s).arr.length = s.arr.length := by
        rw [ha, bubArr_length]
      by_cases hb : s.arr.length - 1 - s.i ≤ s.j + 1
      · -- end of a pass: j+1 = n-1-i, move to (i+1, 0)
        obtain ⟨hi2, hj2⟩ := hwrap hb
        have hj1 : s.j + 1 = s.arr.length - 1 - s.i := by omega
        have hm' : (mBubbleStep s).arr.length - (s.i + 1) = s.j + 1 := by omega
        unfold bubbleInv
        rw [hlen, hi2, hj2, hd2, ha]
        refine ⟨by omega, by omega, ?_, ?_, by simp⟩
        · intro _ p hp
          exact absurd hp (by omega)
        · have hmeq : s.arr.length - (s.i + 1) = s.j + 1 := by omega
          rw [hmeq]
          exact bubArr_sufSorted_wrap (by omega)
            (by have h2eq : s.j + 2 = s.arr.length - s.i := by omega
                rw [h2eq]; exact h4)
            (h3 hi')
      · -- middle of a pass: j advances to j+1
        obtain ⟨hi2, hj2⟩ := hmid hb
        unfold bubbleInv
        rw [hlen, hi2, hj2, hd2, ha]
        refine ⟨h1, by omega, ?_, ?_, by simp⟩
        · intro _
          exact bubArr_prefmax hjlen (h3 hi')
        · exact bubArr_sufSorted_mid (by omega) (by omega) h4


/-- Triangular number: remaining comparisons of the next r bubble passes. -/
def tri : Nat → Nat
  | 0 => 0
  | r + 1 => r + 1 + tri r

theorem tri_ge (r : Nat) : r ≤ tri r := by
  induction r with
  | zero => exact le_refl _
  | succ r ih => simp only [tri]; omega

theorem tri_two (r : Nat) : 2 * tri r = r * (r + 1) := by
  induction r with
  | zero => rfl
  | succ r ih => simp [tri]; ring_nf; ring_nf at ih; omega

/-- Number of further `step()` calls before the bubble machine finishes. -/
def bubbleMeasure (s : MBubble) : Nat :=
  if s.done then 0
  else if s.arr.length - 1 ≤ s.i then 1
  else tri (s.arr.length - 1 - s.i) - s.j + 1

theorem bubbleMeasure_zero {s : MBubble} (h : bubbleMeasure s = 0) : s.done = true := by
  unfold bubbleMeasure at h
  by_cases hd : s.done
  · exact hd
  · rw [if_neg hd] at h
    by_cases hi : s.arr.length - 1 ≤ s.i
    · rw [if_pos hi] at h; omega
    · rw [if_neg hi] at h; omega

theorem bubbleMeasure_step {s : MBubble} (h : s.done = false) (hs : bubbleInv s) :
    bubbleMeasure (mBubbleStep s) < bubbleMeasure s := by
  obtain ⟨h1, h2, _, _, _⟩ := hs
  have hd : ¬ (s.done = true) := by simp [h]
  by_cases hi : s.arr.length - 1 ≤ s.i
  · obtain ⟨ha, hd2, hi2, hj2, _⟩ := mBubbleStep_finish h hi
    unfold bubbleMeasure
    rw [if_neg hd, if_pos hi, if_pos hd2]
    omega
  · have hi' : s.i < s.arr.length - 1 := by omega
    obtain ⟨ha, hd2, _, hwrap, hmid⟩ := mBubbleStep_char h hi'
    have hjb := h2 hi'
    have hlen : (mBubbleStep s).arr.length = s.arr.length := by rw [ha, bubArr_length]
    have hnd : ¬ ((mBubbleStep s).done = true) := by simp [hd2]
    set r := s.arr.length - 1 - s.i with hr
    have hrpos : 1 ≤ r := by omega
    obtain ⟨r', hr'⟩ : ∃ r', r = r' + 1 := ⟨r - 1, by omega⟩
    have htri : tri r = r' + 1 + tri r' := by rw [hr']; rfl
    have htrige := tri_ge r'
    by_cases hb : s.arr.length - 1 - s.i ≤ s.j + 1
    · obtain ⟨hi2, hj2⟩ := hwrap hb
      have hj1 : s.j + 1 = r := by omega
      unfold bubbleMeasure
      rw [if_neg hd, if_neg hi, if_neg hnd, hlen, hi2, hj2]
      by_cases hfin : s.arr.length - 1 ≤ s.i + 1
      · rw [if_pos hfin, ← hr]
        have hre : r = 1 := by omega
        have h5 : tri r = 1 := by rw [hre]; rfl
        omega
      · rw [if_neg hfin]
        have hmeq : s.arr.length - 1 - (s.i + 1) = r' := by omega
        rw [hmeq, ← hr]
        omega
    · obtain ⟨hi2, hj2⟩ := hmid hb
      unfold bubbleMeasure
      rw [if_neg hd, if_neg hi, if_neg hnd, hlen, hi2, hj2, if_neg hi, ← hr]
      omega

theorem bubbleInv_stepN (k : Nat) (s : MBubble) (hs : bubbleInv s) :
    bubbleInv (stepN mBubbleStep k s) := by
  induction k generalizing s with
  | zero => exact hs
  | succ k ih => exact ih _ (bubbleInv_step hs)

theorem bubble_stepN_done :
    ∀ (k : Nat) (s : MBubble), bubbleInv s → bubbleMeasure s ≤ k →
      (stepN mBubbleStep k s).done = true := by
  intro k
  induction k with
  | zero =>
    intro s _ hm
    show s.done = true
    exact bubbleMeasure_zero (by omega)
  | succ k ih =>
    intro s hs hm
    by_cases hd : s.done = true
    · rw [stepN_fix (mBubbleStep_done hd)]
      exact hd
    · have h : s.done = false := by
        cases hb : s.done with
        | true => exact absurd hb hd
        | false => rfl
      rw [stepN_succ]
      exact ih _ (bubbleInv_step hs)
        (by have := bubbleMeasure_step h hs; omega)

theorem bubbleMeasure_init {arr : List Nat} (h : 1 ≤ arr.length) :
    bubbleMeasure (mBubbleInitArr arr) ≤ arr.length * (arr.length - 1) / 2 + arr.length := by
  have htri := tri_two (arr.length - 1)
  unfold bubbleMeasure mBubbleInitArr
  simp only [Nat.sub_zero]
  by_cases hn : arr.length - 1 ≤ 0
  · rw [if_neg (by simp), if_pos hn]
    omega
  · rw [if_neg (by simp), if_neg hn]
    have heq : (arr.length - 1) * (arr.length - 1 + 1) = arr.length * (arr.length - 1) := by
      have h1 : arr.length - 1 + 1 = arr.length := by omega
      rw [h1, Nat.mul_comm]
    rw [heq] at htri
    omega

theorem mBubbleStep_perm (s : MBubble) : (mBubbleStep s).arr.Perm s.arr := by
  by_cases hd : s.done = true
  · rw [mBubbleStep_done hd]
  · have h : s.done = false := by
      cases hb : s.done with
      | true => exact absurd hb hd
      | false => rfl
    by_cases hi : s.arr.length - 1 ≤ s.i
    · rw [(mBubbleStep_finish h hi).1]
    · rw [(mBubbleStep_char h (by omega)).1]
      exact bubArr_perm s.arr s.j

theorem bubble_stepN_perm (k : Nat) (s : MBubble) :
    (stepN mBubbleStep k s).arr.Perm s.arr := by
  induction k generalizing s with
  | zero => exact .refl _
  | succ k ih => exact (ih (mBubbleStep s)).trans (mBubbleStep_perm s)

theorem sufSorted_mono {l : List Nat} {m : Nat} (hs : sufSorted l m) :
    ∀ q p, m ≤ p → p ≤ q → q < l.length → nth l p ≤ nth l q := by
  intro q
  induction q with
  | zero =>
    intro p _ hpq _
    have : p = 0 := by omega
    subst this; exact le_refl _
  | succ q ih =>
    intro p hp hpq hlen
    by_cases hpq1 : p = q + 1
    · subst hpq1; exact le_refl _
    · exact le_trans (ih p hp (by omega) (by omega)) (hs.1 q (by omega) hlen)

theorem bubbleInv_done_sorted {s : MBubble} (hinv : bubbleInv s) (hd : s.done = true) :
    List.Pairwise (· ≤ ·) s.arr := by
  obtain ⟨h1, _, _, hss, hdi⟩ := hinv
  have hi := hdi hd
  rw [List.pairwise_iff_get]
  intro a b hab
  have hg : ∀ (c : Fin s.arr.length), s.arr.get c = nth s.arr (c : Nat) := fun c =>
    (nth_of_get? (List.get?_eq_get c.isLt)).symm
  rw [hg a, hg b]
  by_cases hpa : (a : Nat) < s.arr.length - s.i
  · exact hss.2 a b hpa (by omega) b.isLt
  · exact sufSorted_mono hss b a (by omega) (by exact_mod_cast le_of_lt hab) b.isLt


/-! ## main.js QuickSort stepper -/

/-- Simultaneous JS swap `[arr[a], arr[b]] = [arr[b], arr[a]]` (both indices in
range at every call site, guarded by the source's comparisons). -/
def swapAt (l : List Nat) (a b : Nat) : List Nat :=
  (l.set a (nth l b)).set b (nth l a)

theorem swapAt_length (l : List Nat) (a b : Nat) : (swapAt l a b).length = l.length := by
  simp [swapAt]

theorem head_set_perm {x : Nat} :
    ∀ (t : List Nat) (b : Nat), b < t.length → (nth t b :: t.set b x).Perm (x :: t)
  | y :: s, 0, _ => by
    simpa [nth] using List.Perm.swap x y s
  | y :: s, b + 1, h => by
    have ih := @head_set_perm x s b (by simpa using h)
    have h1 : (nth (y :: s) (b + 1) :: (y :: s).set (b + 1) x) =
        nth s b :: y :: s.set b x := by simp [nth]
    rw [h1]
    have step1 : (nth s b :: y :: s.set b x).Perm (y :: nth s b :: s.set b x) :=
      List.Perm.swap _ _ _
    have step3 : (y :: x :: s).Perm (x :: y :: s) := List.Perm.swap _ _ _
    exact step1.trans ((ih.cons y).trans step3)

theorem swapAt_perm :
    ∀ (l : List Nat) (a b : Nat), a < l.length → b < l.length → (swapAt l a b).Perm l
  | [], _, _, ha, _ => by simp at ha
  | y :: s, 0, 0, _, _ => by simp [swapAt, nth]
  | y :: s, 0, c + 1, _, hb => by
    have h := @head_set_perm y s c (by simpa using hb)
    simpa [swapAt, nth] using h
  | y :: s, d + 1, 0, ha, _ => by
    have h := @head_set_perm y s d (by simpa using ha)
    simpa [swapAt, nth] using h
  | y :: s, d + 1, c + 1, ha, hb => by
    have h := swapAt_perm s d c (by simpa using ha) (by simpa using hb)
    simpa [swapAt, nth] using h.cons y

theorem swapAt_get?_fst {l : List Nat} {a b : Nat} (ha : a < l.length) (hb : b < l.length) :
    (swapAt l a b).get? a = l.get? b := by
  by_cases hab : a = b
  · subst hab
    unfold swapAt
    rw [List.get?_set_eq_of_lt _ (by simpa using ha), get?_eq_some_nth ha]
  · unfold swapAt
    rw [List.get?_set_ne _ _ (fun h => hab h.symm),
        List.get?_set_eq_of_lt _ ha, get?_eq_some_nth hb]

theorem swapAt_get?_snd {l : List Nat} {a b : Nat} (ha : a < l.length) (hb : b < l.length) :
    (swapAt l a b).get? b = l.get? a := by
  unfold swapAt
  rw [List.get?_set_eq_of_lt _ (by simpa using hb), get?_eq_some_nth ha]

theorem swapAt_get?_other {l : List Nat} {a b : Nat} (p : Nat)
    (h1 : p ≠ a) (h2 : p ≠ b) : (swapAt l a b).get? p = l.get? p := by
  unfold swapAt
  rw [List.get?_set_ne _ _ (fun h => h2 h.symm), List.get?_set_ne _ _ (fun h => h1 h.symm)]

/-- Nth-value versions of the swap access lemmas. -/
theorem swapAt_nth_fst {l : List Nat} {a b : Nat} (ha : a < l.length) (hb : b < l.length) :
    nth (swapAt l a b) a = nth l b := by
  unfold nth; rw [swapAt_get?_fst ha hb]

theorem swapAt_nth_snd {l : List Nat} {a b : Nat} (ha : a < l.length) (hb : b < l.length) :
    nth (swapAt l a b) b = nth l a := by
  unfold nth; rw [swapAt_get?_snd ha hb]

theorem swapAt_nth_other {l : List Nat} {a b : Nat} (p : Nat)
    (h1 : p ≠ a) (h2 : p ≠ b) : nth (swapAt l a b) p = nth l p := by
  unfold nth; rw [swapAt_get?_other p h1 h2]

/-- Working state of the `_partition` loop of main.js QuickSort.  The source
variable `i` starts at `low - 1` and is always used as `i + 1`; `ii` stores
`i + 1`, which keeps the embedding in `Nat` (it is `low` at entry and the
eventual pivot position at exit). -/
structure PartSt where
  arr : List Nat
  ii : Nat
  hi : List (Nat × String)
  comps : Nat
  swaps : Nat
deriving Repr, DecidableEq

/-- The `for (let j = low; j < high; j++)` loop of `_partition` in main.js:
one comparison against the captured pivot per iteration and a conditional
swap `[arr[i], arr[j]]` after `i++`. -/
def partLoop (pivot : Option Nat) (high : Nat) (st : PartSt) (j : Nat) : PartSt :=
  if j < high then
    let st1 : PartSt := { st with comps := st.comps + 1, hi := hset st.hi j "#feca57" }
    if jsLt (st1.arr.get? j) pivot then
      partLoop pivot high
        { st1 with arr := swapAt st1.arr st1.ii j, ii := st1.ii + 1,
                   swaps := st1.swaps + 1, hi := hset st1.hi st1.ii "#48dbfb" } (j + 1)
    else
      partLoop pivot high st1 (j + 1)
  else st
termination_by high - j

theorem partLoop_stop {pivot : Option Nat} {high : Nat} {st : PartSt} {j : Nat}
    (h : ¬ j < high) : partLoop pivot high st j = st := by
  unfold partLoop; rw [if_neg h]

/-- Loop invariant of the Lomuto partition: everything in `[low, ii)` is
strictly below the pivot, everything in `[ii, j)` is at least the pivot,
positions outside `[low, high)` are untouched, and the array is a permutation
of the input. -/
theorem partLoop_spec (low pivotV high : Nat) :
    ∀ (j : Nat) (st : PartSt),
      low ≤ st.ii → st.ii ≤ j → j ≤ high → high < st.arr.length →
      (∀ k, low ≤ k → k < st.ii → nth st.arr k < pivotV) →
      (∀ k, st.ii ≤ k → k < j → pivotV ≤ nth st.arr k) →
      (partLoop (some pivotV) high st j).arr.length = st.arr.length ∧
      (partLoop (some pivotV) high st j).arr.Perm st.arr ∧
      low ≤ (partLoop (some pivotV) high st j).ii ∧
      (partLoop (some pivotV) high st j).ii ≤ high ∧
      (∀ k, low ≤ k → k < (partLoop (some pivotV) high st j).ii →
        nth (partLoop (some pivotV) high st j).arr k < pivotV) ∧
      (∀ k, (partLoop (some pivotV) high st j).ii ≤ k → k < high →
        pivotV ≤ nth (partLoop (some pivotV) high st j).arr k) ∧
      (∀ k, k < low ∨ high ≤ k →
        (partLoop (some pivotV) high st j).arr.get? k = st.arr.get? k)
  | j, st => by
    intro hlo hij hjh hlen hbelow habove
    by_cases hcont : j < high
    · have hjlen : j < st.arr.length := by omega
      have hiilen : st.ii < st.arr.length := by omega
      unfold partLoop
      rw [if_pos hcont]
      by_cases hc : nth st.arr j < pivotV
      · have hcond : jsLt (st.arr.get? j) (some pivotV) = true := by
          rw [get?_eq_some_nth hjlen]; simp [jsLt, hc]
        rw [if_pos (by simpa using hcond)]
        have hiij : st.ii ≤ j := hij
        have hrec := partLoop_spec low pivotV high (j + 1)
          { st with arr := swapAt st.arr st.ii j, ii := st.ii + 1,
                    comps := st.comps + 1, swaps := st.swaps + 1,
                    hi := hset (hset st.hi j "#feca57") st.ii "#48dbfb" }
          (by simpa using Nat.le_succ_of_le hlo)
          (by simpa using Nat.succ_le_succ hij)
          (by omega)
          (by simpa [swapAt_length] using hlen)
          (by
            intro k hk1 hk2
            simp only at hk2 ⊢
            by_cases hki : k = st.ii
            · subst hki
              rw [swapAt_nth_fst hiilen hjlen]
              exact hc
            · rw [swapAt_nth_other k hki (by omega)]
              exact hbelow k hk1 (by omega))
          (by
            intro k hk1 hk2
            simp only at hk1 hk2 ⊢
            by_cases hkj : k = j
            · subst hkj
              have hiltj : st.ii < k := by omega
              rw [swapAt_nth_snd hiilen hjlen]
              exact habove st.ii (le_refl _) hiltj
            · rw [swapAt_nth_other k (by omega) hkj]
              exact habove k (by omega) (by omega))
        obtain ⟨r1, r2, r3, r4, r5, r6, r7⟩ := hrec
        simp only at r1 r2 r7
        refine ⟨?_, ?_, r3, r4, r5, r6, ?_⟩
        · rw [r1, swapAt_length]
        · exact r2.trans (swapAt_perm _ _ _ hiilen hjlen)
        · intro k hk
          rw [r7 k hk, swapAt_get?_other k (by omega) (by omega)]
      · have hcond : jsLt (st.arr.get? j) (some pivotV) = false := by
          rw [get?_eq_some_nth hjlen]; simp [jsLt]; omega
        rw [if_neg (by simp only [List.get?_eq_getElem?] at hcond; simp [hcond])]
        have hrec := partLoop_spec low pivotV high (j + 1)
          { st with comps := st.comps + 1, hi := hset st.hi j "#feca57" }
          (by simpa using hlo)
          (by simpa using Nat.le_succ_of_le hij)
          (by omega)
          (by simpa using hlen)
          (by intro k hk1 hk2; simp only at hk2 ⊢; exact hbelow k hk1 hk2)
          (by
            intro k hk1 hk2
            simp only at hk1 hk2 ⊢
            by_cases hkj : k = j
            · subst hkj; omega
            · exact habove k hk1 (by omega))
        obtain ⟨r1, r2, r3, r4, r5, r6, r7⟩ := hrec
        simp only at r1 r2 r7
        exact ⟨r1, r2, r3, r4, r5, r6, r7⟩
    · rw [partLoop_stop hcont]
      exact ⟨rfl, .refl _, hlo, by omega, hbelow,
        fun k hk1 hk2 => habove k hk1 (by omega), fun _ _ => rfl⟩
termination_by j => high - j
decreasing_by all_goals omega

/-- State of the main.js `QuickSort` stepper.  Stack ranges are JS numbers and
may be negative (e.g. `[0, -1]` for the empty array or `[low, pi-1]` with
`pi = 0`), hence `Int`. -/
structure MQuick where
  arr : List Nat
  stack : List (Int × Int)
  pivotIndex : Int
  done : Bool
  stats : SortStats
  highlights : List (Nat × String)
deriving Repr, DecidableEq

/-- main.js `QuickSort.init` on an already-generated dataset:
`stack = [[0, arr.length - 1]]`, `pivotIndex = -1`. -/
def mQuickInitArr (arr : List Nat) : MQuick :=
  { arr := arr, stack := [(0, (arr.length : Int) - 1)], pivotIndex := -1,
    done := false, stats := SortStats.zero, highlights := [] }

/-- main.js `QuickSort.init(seed, size)`. -/
def mQuickInit (seed size : Nat) : MQuick :=
  mQuickInitArr (mainSortArray seed size)

/-- The whole `_partition(low, high)` loop phase of main.js QuickSort (before
the final pivot swap), with the pivot captured by value from `arr[high]`. -/
def lomutoRun (arr : List Nat) (hi0 : List (Nat × String)) (lo hiN : Nat) : PartSt :=
  partLoop (arr.get? hiN) hiN ⟨arr, lo, hset hi0 hiN "#ff9ff3", 0, 0⟩ lo

/-- main.js `QuickSort.step`: counts the step, pops one range, and if it is
non-trivial partitions it (Lomuto) and pushes the two sub-ranges, in the
source's push order (`[low, pi-1]` first, so `[pi+1, high]` is on top). -/
def mQuickStep (s : MQuick) : MQuick :=
  if s.done then s
  else
    let s1 : MQuick := { s with stats := { s.stats with steps := s.stats.steps + 1 } }
    match s1.stack with
    | [] => { s1 with done := true }
    | (low, high) :: rest =>
      if low < high then
        let pst := lomutoRun s1.arr s1.highlights low.toNat high.toNat
        let pi : Int := (pst.ii : Int)
        let st2 : SortStats := { s1.stats with comparisons := s1.stats.comparisons + pst.comps, accesses := s1.stats.accesses + 2 * pst.comps, swaps := s1.stats.swaps + pst.swaps + 1 }
        { s1 with arr := swapAt pst.arr pst.ii high.toNat, stack := (pi + 1, high) :: (low, pi - 1) :: rest, pivotIndex := pi, stats := st2, highlights := hset pst.hi pst.ii "#45b7d1" }
      else
        { s1 with stack := rest }

theorem mQuickStep_done {s : MQuick} (h : s.done = true) : mQuickStep s = s := by
  simp [mQuickStep, h]

/-- One active QuickSort step on a non-trivial range is exactly a Lomuto
partition: the popped range is replaced by the two sub-ranges around the final
pivot position pi, the pivot is the old last element `arr[high]`, everything
left of pi is strictly below it (elements move left only on `arr[j] < pivot`),
everything right of it in the range is at least it, and the array outside the
range is untouched. -/
theorem mQuickStep_partition {s : MQuick} {low high : Int} {rest : List (Int × Int)}
    (h : s.done = false) (hst : s.stack = (low, high) :: rest)
    (h0 : 0 ≤ low) (hlh : low < high) (hhi : high.toNat < s.arr.length) :
    ∃ pi : Nat,
      (mQuickStep s).stack = ((pi : Int) + 1, high) :: (low, (pi : Int) - 1) :: rest ∧
      low.toNat ≤ pi ∧ pi ≤ high.toNat ∧
      (mQuickStep s).arr.length = s.arr.length ∧
      (mQuickStep s).arr.Perm s.arr ∧
      nth (mQuickStep s).arr pi = nth s.arr high.toNat ∧
      (∀ k, low.toNat ≤ k → k < pi → nth (mQuickStep s).arr k < nth (mQuickStep s).arr pi) ∧
      (∀ k, pi < k → k ≤ high.toNat → nth (mQuickStep s).arr pi ≤ nth (mQuickStep s).arr k) ∧
      (∀ k, k < low.toNat ∨ high.toNat < k → (mQuickStep s).arr.get? k = s.arr.get? k) ∧
      (mQuickStep s).done = false ∧
      (mQuickStep s).stats.steps = s.stats.steps + 1 := by
  obtain ⟨arr0, stk0, piv0, done0, st0, hi0⟩ := s
  dsimp only at h hst hhi ⊢
  subst h
  subst hst
  have hstep : mQuickStep ⟨arr0, (low, high) :: rest, piv0, false, st0, hi0⟩ =
      (let pst := lomutoRun arr0 hi0 low.toNat high.toNat
       { arr := swapAt pst.arr pst.ii high.toNat,
         stack := ((pst.ii : Int) + 1, high) :: (low, (pst.ii : Int) - 1) :: rest,
         pivotIndex := (pst.ii : Int),
         done := false,
         stats := { comparisons := st0.comparisons + pst.comps,
                    swaps := st0.swaps + pst.swaps + 1,
                    accesses := st0.accesses + 2 * pst.comps,
                    steps := st0.steps + 1 },
         highlights := hset pst.hi pst.ii "#45b7d1" }) := by
    unfold mQuickStep
    rw [if_neg (by simp)]
    dsimp only
    rw [if_pos hlh]
  rw [hstep]
  dsimp only
  have hlt : low.toNat < high.toNat := by omega
  have hpv := get?_eq_some_nth hhi
  have hspec := partLoop_spec low.toNat (nth arr0 high.toNat) high.toNat low.toNat
    ⟨arr0, low.toNat, hset hi0 high.toNat "#ff9ff3", 0, 0⟩
    (le_refl _) (le_refl _) (by omega) (by dsimp only; omega)
    (fun k _ hk => absurd hk (by dsimp only; omega))
    (fun k hk1 hk2 => absurd (lt_of_le_of_lt hk1 hk2) (by dsimp only; exact lt_irrefl _))
  dsimp only at hspec
  have hpstdef : lomutoRun arr0 hi0 low.toNat high.toNat =
      partLoop (some (nth arr0 high.toNat)) high.toNat
        ⟨arr0, low.toNat, hset hi0 high.toNat "#ff9ff3", 0, 0⟩ low.toNat := by
    unfold lomutoRun
    rw [hpv]
  rw [← hpstdef] at hspec
  set pst := lomutoRun arr0 hi0 low.toNat high.toNat with hpst
  obtain ⟨r1, r2, r3, r4, r5, r6, r7⟩ := hspec
  have hiilen : pst.ii < arr0.length := by omega
  have hhilen2 : high.toNat < pst.arr.length := by omega
  have hiilen2 : pst.ii < pst.arr.length := by omega
  have hpiv : nth pst.arr high.toNat = nth arr0 high.toNat := by
    have h7 := r7 high.toNat (Or.inr (le_refl _))
    unfold nth
    rw [h7]
  refine ⟨pst.ii, rfl, r3, r4, ?_, ?_, ?_, ?_, ?_, ?_, rfl, rfl⟩
  · rw [swapAt_length, r1]
  · exact (swapAt_perm _ _ _ hiilen2 hhilen2).trans r2
  · rw [swapAt_nth_fst hiilen2 hhilen2, hpiv]
  · intro k hk1 hk2
    rw [swapAt_nth_other k (by omega) (by omega),
        swapAt_nth_fst hiilen2 hhilen2, hpiv]
    exact r5 k hk1 hk2
  · intro k hk1 hk2
    rw [swapAt_nth_fst hiilen2 hhilen2, hpiv]
    by_cases hkh : k = high.toNat
    · subst hkh
      rw [swapAt_nth_snd hiilen2 hhilen2]
      exact r6 pst.ii (le_refl _) (by omega)
    · rw [swapAt_nth_other k (by omega) hkh]
      exact r6 k (by omega) (by omega)
  · intro k hk
    rw [swapAt_get?_other k (by omega) (by omega)]
    exact r7 k (by omega)

/-! ## main.js grid datasets and the BFS stepper -/

/-- One row of the main.js `GraphAlgorithm.init` grid: each cell draws one
`rng.random()` and is a wall when the draw is below 0.25, i.e. when the new
LCG state is below `2^30`.  Returns (wall flags, state after the row). -/
def mkCells : Nat → Nat → List Bool × Nat
  | 0, st => ([], st)
  | n + 1, st =>
    let st' := lcgNext st
    let rest := mkCells n st'
    ((decide (st' < 2 ^ 30)) :: rest.1, rest.2)

/-- The 30-by-30 wall grid, generated row-major exactly as
`Array.from({length:30}, () => Array.from({length:30}, () => ...))`. -/
def mkRows : Nat → Nat → List (List Bool) × Nat
  | 0, st => ([], st)
  | n + 1, st =>
    let row := mkCells 30 st
    let rest := mkRows n row.2
    (row.1 :: rest.1, rest.2)

/-- main.js grid of `init(seed)`: 30x30 random walls, then the start cell
(1,1) and the goal cell (28,28) are forced empty. -/
def mainGrid (seed : Nat) : List (List Bool) :=
  let g := (mkRows 30 seed).1
  let g1 := g.set 1 ((g.getD 1 []).set 1 false)
  g1.set 28 ((g1.getD 28 []).set 28 false)

/-- Wall lookup `grid[y][x].type === 'wall'` (used only behind the bounds
checks of the source, so the default value is never observable). -/
def wallAt (g : List (List Bool)) (x y : Nat) : Bool := (g.getD y []).getD x false

/-- JS `Set.add` on a set modelled as a duplicate-free membership list. -/
def setAdd (l : List (Nat × Nat)) (a : Nat × Nat) : List (Nat × Nat) :=
  if a ∈ l then l else a :: l

theorem mem_setAdd {l : List (Nat × Nat)} {a b : Nat × Nat} :
    a ∈ setAdd l b ↔ a = b ∨ a ∈ l := by
  unfold setAdd
  split
  · rename_i h
    constructor
    · exact fun hm => Or.inr hm
    · rintro (rfl | hm)
      · exact h
      · exact hm
  · simp [List.mem_cons]

/-- JS `Map.set` on an association list (later writes shadow earlier ones). -/
def mapSet (m : List ((Nat × Nat) × (Nat × Nat))) (k v : Nat × Nat) :
    List ((Nat × Nat) × (Nat × Nat)) :=
  (k, v) :: m.filter (fun p => p.1 != k)

/-- JS `Map.get` on the association-list model. -/
def mapGet (m : List ((Nat × Nat) × (Nat × Nat))) (k : Nat × Nat) : Option (Nat × Nat) :=
  (m.find? (fun p => p.1 == k)).map (fun p => p.2)

/-- Stats object of main.js `GraphAlgorithm`. -/
structure GraphStats where
  nodesVisited : Nat
  pathLength : Nat
  steps : Nat
deriving Repr, DecidableEq

/-- State of the main.js `BFS` stepper.  Frontier entries are `{x, y}` cells;
the JS string keys `"x,y"` are modelled by the cell pairs themselves (the
formatting is injective). -/
structure MBFS where
  walls : List (List Bool)
  frontier : List (Nat × Nat)
  visited : List (Nat × Nat)
  cameFrom : List ((Nat × Nat) × (Nat × Nat))
  path : List (Nat × Nat)
  done : Bool
  stats : GraphStats
deriving Repr, DecidableEq

/-- main.js `BFS.init(seed)`: random grid, frontier seeded with the start,
start marked visited. -/
def mBFSInit (seed : Nat) : MBFS :=
  { walls := mainGrid seed, frontier := [(1, 1)], visited := [(1, 1)],
    cameFrom := [], path := [], done := false,
    stats := { nodesVisited := 0, pathLength := 0, steps := 0 } }

/-- The in-bounds check `nx >= 0 && nx < 30 && ny >= 0 && ny < 30` of one
neighbour offset, yielding the cell coordinates when it passes. -/
def neighborCell (c : Nat × Nat) (d : Int × Int) : Option (Nat × Nat) :=
  let nx : Int := (c.1 : Int) + d.1
  let ny : Int := (c.2 : Int) + d.2
  if 0 ≤ nx ∧ nx < 30 ∧ 0 ≤ ny ∧ ny < 30 then some (nx.toNat, ny.toNat) else none

/-- One iteration of the neighbour loop of main.js `BFS.step`: bounds check,
wall check, visited check, then mark visited, record the parent and enqueue. -/
def bfsRelax (walls : List (List Bool)) (c : Nat × Nat)
    (acc : List (Nat × Nat) × List (Nat × Nat) × List ((Nat × Nat) × (Nat × Nat)))
    (d : Int × Int) :
    List (Nat × Nat) × List (Nat × Nat) × List ((Nat × Nat) × (Nat × Nat)) :=
  match neighborCell c d with
  | none => acc
  | some e =>
    if wallAt walls e.1 e.2 = false ∧ e ∉ acc.2.1 then
      (acc.1 ++ [e], setAdd acc.2.1 e, mapSet acc.2.2 e c)
    else acc

/-- The fixed neighbour-iteration order of main.js graph steppers. -/
def bfsDirs : List (Int × Int) := [(0, 1), (1, 0), (0, -1), (-1, 0)]

/-- The goal-path walk of `_reconstructPath`, with fuel (the source's `while`
loop; any reachable `cameFrom` map is acyclic, and the fuel covers every
chain the map can hold). -/
def reconPath (cf : List ((Nat × Nat) × (Nat × Nat))) :
    Nat → Nat × Nat → List (Nat × Nat) → Nat → List (Nat × Nat) × Nat
  | 0, _, path, plen => (path, plen)
  | fuel + 1, cur, path, plen =>
    match mapGet cf cur with
    | none => (path, plen)
    | some prev => reconPath cf fuel prev (setAdd path cur) (plen + 1)

/-- main.js `BFS._reconstructPath` starting from the goal, then adding the
start cell. -/
def mBFSReconstruct (s : MBFS) : MBFS :=
  let r := reconPath s.cameFrom (s.cameFrom.length + 1) (28, 28) s.path s.stats.pathLength
  { s with path := setAdd r.1 (1, 1), stats := { s.stats with pathLength := r.2 } }

/-- main.js `BFS.step`, translated branch for branch: the guard finishes
without counting a step when the frontier is exhausted; otherwise the head of
the FIFO frontier is dequeued and, unless it is the goal, all four neighbour
offsets are processed within the same call. -/
def mBFSStep (s : MBFS) : MBFS :=
  if s.done then s
  else
    match s.frontier with
    | [] => { s with done := true }
    | c :: rest =>
      let s1 : MBFS := { s with frontier := rest, stats := { s.stats with steps := s.stats.steps + 1, nodesVisited := s.stats.nodesVisited + 1 } }
      if c = (28, 28) then
        let s2 := mBFSReconstruct s1
        { s2 with done := true }
      else
        let acc := bfsDirs.foldl (bfsRelax s1.walls c) (s1.frontier, s1.visited, s1.cameFrom)
        { s1 with frontier := acc.1, visited := acc.2.1, cameFrom := acc.2.2 }

theorem mBFSStep_done {s : MBFS} (h : s.done = true) : mBFSStep s = s := by
  simp [mBFSStep, h]

/-- The neighbour cells a BFS step is required to enqueue, as the claim words
it: every in-bounds, non-wall, not-yet-visited neighbour of the dequeued cell,
in the fixed neighbour-iteration order. -/
def claimNbAux (w : List (List Bool)) (visited : List (Nat × Nat)) (c : Nat × Nat) :
    List (Int × Int) → List (Nat × Nat)
  | [] => []
  | d :: ds =>
    match neighborCell c d with
    | none => claimNbAux w visited c ds
    | some e =>
      if wallAt w e.1 e.2 = false ∧ e ∉ visited then e :: claimNbAux w visited c ds
      else claimNbAux w visited c ds

/-- The full required enqueue list over the source's neighbour order. -/
def bfsClaimNeighbors (w : List (List Bool)) (visited : List (Nat × Nat))
    (c : Nat × Nat) : List (Nat × Nat) :=
  claimNbAux w visited c bfsDirs

theorem claimNbAux_congr {w : List (List Bool)} {c : Nat × Nat}
    {v1 v2 : List (Nat × Nat)} :
    ∀ {ds : List (Int × Int)},
      (∀ d ∈ ds, ∀ e, neighborCell c d = some e → (e ∈ v1 ↔ e ∈ v2)) →
      claimNbAux w v1 c ds = claimNbAux w v2 c ds
  | [], _ => rfl
  | d :: ds, h => by
    have hrest := @claimNbAux_congr w c v1 v2 ds
      (fun d' hd' e he => h d' (List.mem_cons_of_mem _ hd') e he)
    unfold claimNbAux
    cases hnc : neighborCell c d with
    | none => exact hrest
    | some e =>
      dsimp only
      have hiff := h d (List.mem_cons_self _ _) e hnc
      by_cases hv : e ∈ v1
      · rw [if_neg (by simp [hv]), if_neg (by simp [hiff.mp hv])]
        exact hrest
      · by_cases hw : wallAt w e.1 e.2 = false
        · rw [if_pos ⟨hw, hv⟩, if_pos ⟨hw, fun hc => hv (hiff.mpr hc)⟩, hrest]
        · rw [if_neg (by simp [hw]), if_neg (by simp [hw])]
          exact hrest

theorem neighborCell_inj {c : Nat × Nat} {d d' : Int × Int} {e : Nat × Nat}
    (h1 : neighborCell c d = some e) (h2 : neighborCell c d' = some e) : d = d' := by
  unfold neighborCell at h1 h2
  dsimp only at h1 h2
  split at h1 <;> rename_i hb1
  · split at h2 <;> rename_i hb2
    · rw [Option.some_inj] at h1 h2
      have h3 := h1.trans h2.symm
      rw [Prod.mk.injEq] at h3
      obtain ⟨ha, hb⟩ := h3
      have hd1 : d.1 = d'.1 := by omega
      have hd2 : d.2 = d'.2 := by omega
      exact Prod.ext hd1 hd2
    · exact absurd h2 (by simp)
  · exact absurd h1 (by simp)

/-- Processing the neighbour offsets sequentially (marking visited as it goes)
enqueues exactly the claim's required neighbour list, computed against the
visited set at the start of the step, because the candidate cells of distinct
offsets are distinct. -/
theorem foldRelax_spec {w : List (List Bool)} {c : Nat × Nat} :
    ∀ (ds : List (Int × Int)) (front vis : List (Nat × Nat))
      (cf : List ((Nat × Nat) × (Nat × Nat))),
      List.Pairwise (fun d d' => ∀ e e', neighborCell c d = some e →
        neighborCell c d' = some e' → e ≠ e') ds →
      (ds.foldl (bfsRelax w c) (front, vis, cf)).1 = front ++ claimNbAux w vis c ds ∧
      (∀ e, e ∈ (ds.foldl (bfsRelax w c) (front, vis, cf)).2.1 ↔
        e ∈ vis ∨ e ∈ claimNbAux w vis c ds)
  | [], front, vis, cf, _ => by simp [claimNbAux]
  | d :: ds, front, vis, cf, hpw => by
    obtain ⟨hhead, htail⟩ := List.pairwise_cons.mp hpw
    rw [List.foldl_cons]
    unfold claimNbAux
    cases hnc : neighborCell c d with
    | none =>
      have hacc : bfsRelax w c (front, vis, cf) d = (front, vis, cf) := by
        unfold bfsRelax; rw [hnc]
      rw [hacc]
      exact foldRelax_spec ds front vis cf htail
    | some e =>
      dsimp only
      by_cases hcond : wallAt w e.1 e.2 = false ∧ e ∉ vis
      · have hacc : bfsRelax w c (front, vis, cf) d =
            (front ++ [e], setAdd vis e, mapSet cf e c) := by
          unfold bfsRelax; rw [hnc]; dsimp only; rw [if_pos hcond]
        rw [hacc, if_pos hcond]
        have hrec := @foldRelax_spec w c ds (front ++ [e]) (setAdd vis e) (mapSet cf e c) htail
        have hcongr : claimNbAux w (setAdd vis e) c ds = claimNbAux w vis c ds := by
          apply claimNbAux_congr
          intro d' hd' e' he'
          have hne : e' ≠ e := fun hq =>
            (hhead d' hd' e e' hnc he') hq.symm
          rw [mem_setAdd]
          constructor
          · rintro (rfl | hm)
            · exact absurd rfl hne
            · exact hm
          · exact fun hm => Or.inr hm
        constructor
        · rw [hrec.1, hcongr, List.append_assoc]
          rfl
        · intro x
          rw [hrec.2 x, hcongr, mem_setAdd]
          simp only [List.mem_cons]
          tauto
      · have hacc : bfsRelax w c (front, vis, cf) d = (front, vis, cf) := by
          unfold bfsRelax; rw [hnc]; dsimp only; rw [if_neg hcond]
        rw [hacc, if_neg hcond]
        exact foldRelax_spec ds front vis cf htail

theorem bfsDirs_pairwise (c : Nat × Nat) :
    List.Pairwise (fun d d' => ∀ e e', neighborCell c d = some e →
      neighborCell c d' = some e' → e ≠ e') bfsDirs := by
  have hne : List.Pairwise (fun d d' : Int × Int => d ≠ d') bfsDirs := by
    unfold bfsDirs; decide
  refine hne.imp ?_
  intro d d' hdd e e' h1 h2 hee
  exact hdd (neighborCell_inj h1 (hee ▸ h2))

/-- One BFS step on a dequeued non-goal cell: the head leaves the FIFO
frontier, and every in-bounds, non-wall, unvisited neighbour is enqueued (in
the fixed order) and marked visited, all within the same call, which also
counts one step and one visited node. -/
theorem mBFSStep_expand {s : MBFS} {c : Nat × Nat} {rest : List (Nat × Nat)}
    (h : s.done = false) (hf : s.frontier = c :: rest) (hg : c ≠ (28, 28)) :
    (mBFSStep s).frontier = rest ++ bfsClaimNeighbors s.walls s.visited c ∧
    (∀ e, e ∈ (mBFSStep s).visited ↔
      e ∈ s.visited ∨ e ∈ bfsClaimNeighbors s.walls s.visited c) ∧
    (mBFSStep s).done = false ∧
    (mBFSStep s).stats.steps = s.stats.steps + 1 ∧
    (mBFSStep s).stats.nodesVisited = s.stats.nodesVisited + 1 := by
  obtain ⟨w, f, v, cf, p, d0, st0⟩ := s
  dsimp only at h hf hg ⊢
  subst h
  subst hf
  have hred : mBFSStep ⟨w, c :: rest, v, cf, p, false, st0⟩ =
      (let acc := bfsDirs.foldl (bfsRelax w c) (rest, v, cf)
       { walls := w, frontier := acc.1, visited := acc.2.1, cameFrom := acc.2.2, path := p, done := false, stats := { st0 with steps := st0.steps + 1, nodesVisited := st0.nodesVisited + 1 } }) := by
    unfold mBFSStep
    rw [if_neg (by simp)]
    dsimp only
    rw [if_neg hg]
  rw [hred]
  have hspec := @foldRelax_spec w c bfsDirs rest v cf (bfsDirs_pairwise c)
  exact ⟨hspec.1, hspec.2, rfl, rfl, rfl⟩

/-- A BFS `step()` call that meets an exhausted frontier while unfinished
only flips the finished flag: stats (including `steps`) stay untouched. -/
theorem mBFSStep_exhaust {s : MBFS} (h : s.done = false) (hf : s.frontier = []) :
    mBFSStep s = { s with done := true } := by
  unfold mBFSStep
  rw [if_neg (by simp [h]), hf]

/-! ## main.js binary search tree and the in-order traversal stepper -/

/-- Binary tree with `leaf` playing the role of JS `null` children. -/
inductive BTree where
  | leaf : BTree
  | node : BTree → Nat → BTree → BTree
deriving Repr, DecidableEq

/-- main.js `TreeAlgorithm._insertNode`: standard BST insert, equal values are
dropped (neither branch of `value < root.value` / `value > root.value`). -/
def insertNode : BTree → Nat → BTree
  | .leaf, v => .node .leaf v .leaf
  | .node l x r, v =>
    if v < x then .node (insertNode l v) x r
    else if x < v then .node l x (insertNode r v)
    else .node l x r

/-- The tree built by repeated insertion in `TreeAlgorithm.init`. -/
def buildTree (vals : List Nat) : BTree := vals.foldl insertNode .leaf

/-- Functional in-order sequence (left subtree, node, right subtree). -/
def inorder : BTree → List Nat
  | .leaf => []
  | .node l v r => inorder l ++ v :: inorder r

/-- Values drawn for the tree dataset: `rng.int(1, 99)` per node. -/
def mainTreeValues : Nat → Nat → List Nat
  | _, 0 => []
  | st, n + 1 =>
    let p := lcgInt st 1 99
    p.2 :: mainTreeValues p.1 n

/-- Stats object of main.js `TreeAlgorithm`. -/
structure TreeStats where
  nodesVisited : Nat
  steps : Nat
deriving Repr, DecidableEq

/-- State of the main.js `InOrderTraversal` stepper: `cur = leaf` models a
null `currentNode`, the explicit stack holds the deferred nodes (top first,
matching `push`/`pop` on the JS array end). -/
structure MInOrder where
  root : BTree
  cur : BTree
  stack : List BTree
  order : List Nat
  done : Bool
  stats : TreeStats
deriving Repr, DecidableEq

/-- main.js `InOrderTraversal.init(seed, size)`: the dataset is capped at 31
values of `rng.int(1, 99)`; the cursor starts at the root. -/
def mInOrderInit (seed size : Nat) : MInOrder :=
  let root := buildTree (mainTreeValues seed (min size 31))
  { root := root, cur := root, stack := [], order := [], done := false,
    stats := { nodesVisited := 0, steps := 0 } }

/-- main.js `InOrderTraversal.step`: descend pushing the left spine, or pop,
visit (append to `traversalOrder`) and move to the right child; finish when
the cursor is null and the stack empty. -/
def mInOrderStep (s : MInOrder) : MInOrder :=
  if s.done then s
  else
    let s1 : MInOrder := { s with stats := { s.stats with steps := s.stats.steps + 1 } }
    match s1.cur with
    | .node l v r => { s1 with stack := BTree.node l v r :: s1.stack, cur := l }
    | .leaf =>
      match s1.stack with
      | [] => { s1 with done := true }
      | BTree.leaf :: rest => { s1 with stack := rest, cur := .leaf }
      | BTree.node _ v r :: rest =>
        { s1 with stack := rest, cur := r, order := s1.order ++ [v], stats := { s1.stats with nodesVisited := s1.stats.nodesVisited + 1 } }

theorem mInOrderStep_done {s : MInOrder} (h : s.done = true) : mInOrderStep s = s := by
  simp [mInOrderStep, h]

/-- Pending in-order output of the stack: each deferred node still owes its
own value and its right subtree. -/
def stackRest : List BTree → List Nat
  | [] => []
  | BTree.leaf :: rest => stackRest rest
  | BTree.node _ v r :: rest => (v :: inorder r) ++ stackRest rest

/-- Run-time invariant of the in-order machine: output already emitted plus
the pending work of cursor and stack is the in-order sequence of the root. -/
def inOrderInv (s : MInOrder) : Prop :=
  s.order ++ inorder s.cur ++ stackRest s.stack = inorder s.root ∧
  (s.done = true → s.cur = BTree.leaf ∧ s.stack = [])

theorem inOrderInv_init (seed size : Nat) : inOrderInv (mInOrderInit seed size) := by
  constructor
  · simp [mInOrderInit, stackRest]
  · intro h
    simp [mInOrderInit] at h

theorem inOrderInv_step {s : MInOrder} (hs : inOrderInv s) : inOrderInv (mInOrderStep s) := by
  by_cases hd : s.done = true
  · rw [mInOrderStep_done hd]; exact hs
  · obtain ⟨root0, cur0, stk0, ord0, done0, st0⟩ := s
    dsimp only at hd ⊢
    obtain ⟨h1, _⟩ := hs
    dsimp only [inOrderInv] at h1 ⊢
    have hdf : done0 = false := by
      cases done0 with
      | true => exact absurd rfl hd
      | false => rfl
    subst hdf
    unfold mInOrderStep
    rw [if_neg (by simp)]
    dsimp only
    cases cur0 with
    | node l v r =>
      dsimp only
      refine ⟨?_, by simp⟩
      rw [← h1]
      simp [inorder, stackRest]
    | leaf =>
      dsimp only
      cases stk0 with
      | nil => exact ⟨h1, fun _ => ⟨rfl, rfl⟩⟩
      | cons t rest =>
        cases t with
        | leaf =>
          dsimp only
          refine ⟨?_, by simp⟩
          rw [← h1]
          simp [inorder, stackRest]
        | node tl tv tr =>
          dsimp only
          refine ⟨?_, by simp⟩
          rw [← h1]
          simp [inorder, stackRest]

theorem inOrderInv_stepN (k : Nat) (s : MInOrder) (hs : inOrderInv s) :
    inOrderInv (stepN mInOrderStep k s) := by
  induction k generalizing s with
  | zero => exact hs
  | succ k ih => exact ih _ (inOrderInv_step hs)

theorem inOrder_done_output {s : MInOrder} (hs : inOrderInv s) (hd : s.done = true) :
    s.order = inorder s.root := by
  obtain ⟨h1, h2⟩ := hs
  obtain ⟨hc, hst⟩ := h2 hd
  rw [hc, hst] at h1
  simpa [inorder, stackRest] using h1

/-! ### BST facts: the in-order sequence of the built tree -/

/-- All values of a tree satisfy a predicate. -/
def TAll (p : Nat → Prop) : BTree → Prop
  | .leaf => True
  | .node l v r => TAll p l ∧ p v ∧ TAll p r

/-- Binary-search-tree property. -/
def IsBST : BTree → Prop
  | .leaf => True
  | .node l v r => IsBST l ∧ IsBST r ∧ TAll (fun y => y < v) l ∧ TAll (fun y => v < y) r

theorem TAll_insert {p : Nat → Prop} :
    ∀ {t : BTree} {v : Nat}, TAll p t → p v → TAll p (insertNode t v)
  | .leaf, v, _, hv => ⟨trivial, hv, trivial⟩
  | .node l x r, v, ht, hv => by
    obtain ⟨hl, hx, hr⟩ := ht
    unfold insertNode
    by_cases h1 : v < x
    · rw [if_pos h1]
      exact ⟨TAll_insert hl hv, hx, hr⟩
    · rw [if_neg h1]
      by_cases h2 : x < v
      · rw [if_pos h2]
        exact ⟨hl, hx, TAll_insert hr hv⟩
      · rw [if_neg h2]
        exact ⟨hl, hx, hr⟩

theorem IsBST_insert : ∀ {t : BTree} {v : Nat}, IsBST t → IsBST (insertNode t v)
  | .leaf, v, _ => ⟨trivial, trivial, trivial, trivial⟩
  | .node l x r, v, ht => by
    obtain ⟨hl, hr, hal, har⟩ := ht
    unfold insertNode
    by_cases h1 : v < x
    · rw [if_pos h1]
      exact ⟨IsBST_insert hl, hr, TAll_insert hal h1, har⟩
    · rw [if_neg h1]
      by_cases h2 : x < v
      · rw [if_pos h2]
        exact ⟨hl, IsBST_insert hr, hal, TAll_insert har h2⟩
      · rw [if_neg h2]
        exact ⟨hl, hr, hal, har⟩

theorem mem_inorder_insert :
    ∀ (t : BTree) (v x : Nat), x ∈ inorder (insertNode t v) ↔ x = v ∨ x ∈ inorder t
  | .leaf, v, x => by simp [insertNode, inorder]
  | .node l y r, v, x => by
    unfold insertNode
    by_cases h1 : v < y
    · rw [if_pos h1]
      simp only [inorder, List.mem_append, List.mem_cons,
        mem_inorder_insert l v x]
      tauto
    · rw [if_neg h1]
      by_cases h2 : y < v
      · rw [if_pos h2]
        simp only [inorder, List.mem_append, List.mem_cons,
          mem_inorder_insert r v x]
        tauto
      · rw [if_neg h2]
        have hvy : v = y := by omega
        subst hvy
        simp only [inorder, List.mem_append, List.mem_cons]
        tauto

theorem TAll_iff_inorder {p : Nat → Prop} :
    ∀ {t : BTree}, TAll p t ↔ ∀ x ∈ inorder t, p x
  | .leaf => by simp [TAll, inorder]
  | .node l v r => by
    simp only [TAll, inorder, List.mem_append, List.mem_cons,
      @TAll_iff_inorder p l, @TAll_iff_inorder p r]
    constructor
    · rintro ⟨hl, hv, hr⟩ x (hx | rfl | hx)
      · exact hl x hx
      · exact hv
      · exact hr x hx
    · intro h
      exact ⟨fun x hx => h x (Or.inl hx), h v (Or.inr (Or.inl rfl)),
        fun x hx => h x (Or.inr (Or.inr hx))⟩

theorem inorder_sorted : ∀ {t : BTree}, IsBST t → List.Pairwise (· < ·) (inorder t)
  | .leaf, _ => by simp [inorder]
  | .node l v r, ht => by
    obtain ⟨hl, hr, hal, har⟩ := ht
    unfold inorder
    rw [List.pairwise_append]
    refine ⟨inorder_sorted hl, ?_, ?_⟩
    · rw [List.pairwise_cons]
      exact ⟨TAll_iff_inorder.mp har, inorder_sorted hr⟩
    · intro a ha b hb
      have hav : a < v := TAll_iff_inorder.mp hal a ha
      rcases List.mem_cons.mp hb with rfl | hbr
      · exact hav
      · exact hav.trans (TAll_iff_inorder.mp har b hbr)

theorem buildTree_aux_bst : ∀ (vals : List Nat) (t : BTree), IsBST t →
    IsBST (vals.foldl insertNode t)
  | [], _, ht => ht
  | v :: vals, t, ht => buildTree_aux_bst vals _ (IsBST_insert ht)

theorem buildTree_bst (vals : List Nat) : IsBST (buildTree vals) :=
  buildTree_aux_bst vals .leaf trivial

theorem buildTree_aux_mem : ∀ (vals : List Nat) (t : BTree) (x : Nat),
    x ∈ inorder (vals.foldl insertNode t) ↔ x ∈ vals ∨ x ∈ inorder t
  | [], _, x => by simp
  | v :: vals, t, x => by
    rw [List.foldl_cons, buildTree_aux_mem vals _ x, mem_inorder_insert t v x]
    simp only [List.mem_cons]
    tauto

theorem buildTree_mem (vals : List Nat) (x : Nat) :
    x ∈ inorder (buildTree vals) ↔ x ∈ vals := by
  rw [buildTree, buildTree_aux_mem]
  simp [inorder]

/-! ## script.js functional-registry steppers -/

/-- script.js `Data.sortedArray(n, rng)`: `Data.array` sorted ascending
(`.sort((a,b)=>a-b)`). -/
def dataSortedArray (n a : Nat) : List Nat × Nat :=
  let p := dataArray n a
  (p.1.mergeSort (fun x y => decide (x ≤ y)), p.2)

/-- Signed index read `a[k]` for a JS index that may be negative. -/
def getI (a : List Nat) (k : Int) : Option Nat :=
  if 0 ≤ k then a.get? k.toNat else none

/-- script.js `clamp(v, min, max) = Math.max(min, Math.min(max, v))`. -/
def clampI (v mn mx : Int) : Int := max mn (min mx v)

/-- State of a script.js `makeSearchAlgo` stepper with the Linear Search core
(`i` is the registration-closure cursor; one live instance is modelled). -/
structure SLin where
  arr : List Nat
  target : Nat
  i : Nat
  done : Bool
  steps : Nat
  comps : Nat
  hi : List (Nat × String)
deriving Repr, DecidableEq

/-- script.js `makeSearchAlgo.create().init(seed, size)` with the Linear
Search core: sorted dataset, target drawn from it, core cursor reset.
`rndSeeded` truncates the seed with `>>> 0`. -/
def sLinInit (seed size : Nat) : SLin :=
  let p := dataSortedArray size (seed % 2 ^ 32)
  let q := m32Next p.2
  { arr := p.1, target := (p.1).getD (q.2 * p.1.length / 2 ^ 32) 0,
    i := 0, done := false, steps := 0, comps := 0, hi := [] }

/-- script.js Linear Search `step` through the `makeSearchAlgo` harness.  The
core's `finished()` is constantly `false`, so the harness never sets `done`:
the only mutations are the core's and the unconditional `stats.steps++`. -/
def sLinStep (s : SLin) : SLin :=
  if s.done then s
  else
    let s1 : SLin :=
      if s.arr.length ≤ s.i then s
      else
        let eq := s.arr.getD s.i 0 == s.target
        let s2 : SLin := { s with comps := s.comps + 1, hi := hset s.hi s.i (if eq then "#2ecc71" else "#f1c40f") }
        if eq then s2 else { s2 with i := s.i + 1 }
    { s1 with steps := s1.steps + 1 }

theorem sLinStep_done_eq (s : SLin) : (sLinStep s).done = s.done := by
  unfold sLinStep
  by_cases hd : s.done
  · rw [if_pos hd]
  · rw [if_neg hd]
    by_cases hl : s.arr.length ≤ s.i
    · simp only [if_pos hl]
    · simp only [if_neg hl]
      split <;> rfl

theorem sLin_never_done (s : SLin) (h : s.done = false) :
    ∀ k, (stepN sLinStep k s).done = false := by
  intro k
  induction k generalizing s with
  | zero => exact h
  | succ k ih =>
    rw [stepN_succ]
    exact ih _ ((sLinStep_done_eq s).trans h)

/-- State of the script.js Interpolation Search stepper (same harness;
closure cursors `l`, `r`). -/
structure SInterp where
  arr : List Nat
  target : Nat
  l : Int
  r : Int
  done : Bool
  steps : Nat
  comps : Nat
  hi : List (Nat × String)
deriving Repr, DecidableEq

/-- script.js `makeSearchAlgo.create().init` with the Interpolation Search
core: `l = 0`, `r = arr.length - 1`. -/
def sInterpInit (seed size : Nat) : SInterp :=
  let p := dataSortedArray size (seed % 2 ^ 32)
  let q := m32Next p.2
  { arr := p.1, target := (p.1).getD (q.2 * p.1.length / 2 ^ 32) 0,
    l := 0, r := (p.1.length : Int) - 1, done := false, steps := 0, comps := 0, hi := [] }

/-- script.js Interpolation Search `step` through the harness.  The guard
`l > r || a[l] === a[r]` returns before the interpolated position (whose
denominator `a[r] - a[l]` would be zero on equal values) is computed.  JS
`===` on two out-of-range reads is true (`undefined === undefined`), matching
`Option` equality.  `Math.floor` on the mixed-sign quotient is `Int.fdiv`
(exact for these magnitudes in doubles). -/
def sInterpStep (s : SInterp) : SInterp :=
  if s.done then s
  else
    let s1 : SInterp :=
      if s.r < s.l ∨ getI s.arr s.l = getI s.arr s.r then s
      else
        let al : Int := (s.arr.getD s.l.toNat 0 : Nat)
        let ar : Int := (s.arr.getD s.r.toNat 0 : Nat)
        let pos := s.l + Int.fdiv (((s.target : Int) - al) * (s.r - s.l)) (ar - al)
        let m := clampI pos s.l s.r
        let s2 : SInterp := { s with comps := s.comps + 1, hi := hset s.hi m.toNat "#f1c40f" }
        if s.arr.getD m.toNat 0 == s.target then
          { s2 with hi := hset s2.hi m.toNat "#2ecc71" }
        else if (s.arr.getD m.toNat 0 : Nat) < s.target then
          { s2 with l := m + 1 }
        else
          { s2 with r := m - 1 }
    { s1 with steps := s1.steps + 1 }

/-- When the value range is empty (`a[l] === a[r]`), the script.js
interpolation step takes the guard branch: nothing but `steps` changes, and
in particular no interpolated position is computed. -/
theorem sInterpStep_guard {s : SInterp} (h : s.done = false)
    (heq : getI s.arr s.l = getI s.arr s.r) :
    sInterpStep s = { s with steps := s.steps + 1 } := by
  unfold sInterpStep
  rw [if_neg (by simp [h])]
  rw [if_pos (Or.inr heq)]

/-! ## part_000 InterpolationSearch stepper -/

/-- Stats object of the part_000 `SearchAlgorithm`. -/
structure PSearchStats where
  comparisons : Nat
  accesses : Nat
  steps : Nat
deriving Repr, DecidableEq

/-- State of the part_000 `InterpolationSearch` stepper. -/
structure PInterp where
  arr : List Nat
  target : Nat
  low : Int
  high : Int
  found : Bool
  foundIndex : Int
  done : Bool
  stats : PSearchStats
  highlights : List (Nat × String)
deriving Repr, DecidableEq

/-- part_000 `SearchAlgorithm.init` for Interpolation Search: the dataset is
the identity array `1..size` (the shuffle is skipped for this algorithm name)
and re-sorting leaves it unchanged; the target is `array[rng.int(0, size-1)]`
with the part_000 LCG. -/
def pInterpInit (seed size : Nat) : PInterp :=
  let arr := (List.range size).map (fun i => i + 1)
  let idx := (lcgInt seed 0 (size - 1)).2
  { arr := arr, target := arr.getD idx 0, low := 0, high := (size : Int) - 1,
    found := false, foundIndex := -1, done := false,
    stats := { comparisons := 0, accesses := 0, steps := 0 }, highlights := [] }

/-- part_000 `InterpolationSearch.step`.  The two explicit guards (empty or
out-of-range window, and `low === high`) run before the interpolated
position; its denominator `arr[high] - arr[low]` is only reached with
`low < high`, where this dataset's strictly increasing values keep it
non-zero.  On this dataset the JS float expression
`(t - a[low]) / (a[high] - a[low]) * (high - low)` evaluates to the same
integer as the exact rational floor used here. -/
def pInterpStep (s : PInterp) : PInterp :=
  if s.done then s
  else
    let s1 : PInterp := { s with stats := { s.stats with steps := s.stats.steps + 1 } }
    if s1.high < s1.low ∨ jsLt (some s1.target) (getI s1.arr s1.low) ∨
        jsGt (some s1.target) (getI s1.arr s1.high) then
      { s1 with done := true }
    else if s1.low = s1.high then
      if s1.arr.getD s1.low.toNat 0 == s1.target then
        { s1 with found := true, foundIndex := s1.low, done := true }
      else
        { s1 with done := true }
    else
      let al : Int := (s1.arr.getD s1.low.toNat 0 : Nat)
      let ah : Int := (s1.arr.getD s1.high.toNat 0 : Nat)
      let pos := s1.low + Int.fdiv (((s1.target : Int) - al) * (s1.high - s1.low)) (ah - al)
      let h1 := hset (hset s1.highlights s1.low.toNat "#ff9ff3") s1.high.toNat "#ff9ff3"
      let s2 : PInterp := { s1 with highlights := hset h1 pos.toNat "#feca57", stats := { s1.stats with comparisons := s1.stats.comparisons + 1, accesses := s1.stats.accesses + 1 } }
      if s2.arr.getD pos.toNat 0 == s2.target then
        { s2 with found := true, foundIndex := pos, done := true }
      else if (s2.arr.getD pos.toNat 0 : Nat) < s2.target then
        { s2 with low := pos + 1 }
      else
        { s2 with high := pos - 1 }

/-! ## script.js grid registry and its BFS core -/

/-- The sequence of cell weights `1 + Math.floor(rng()*9)` drawn row-major by
script.js `Data.grid`. -/
def drawWeights : Nat → Nat → List Nat × Nat
  | 0, a => ([], a)
  | n + 1, a =>
    let p := m32Next a
    let rest := drawWeights n p.1
    ((1 + p.2 * 9 / 2 ^ 32) :: rest.1, rest.2)

/-- script.js `Data.grid(size, rng)`: row-major cells `{x, y, w}`; the k-th
draw belongs to cell `(k % size, k / size)`. -/
def dataGrid (n a : Nat) : List (Nat × Nat × Nat) × Nat :=
  let p := drawWeights (n * n) a
  (((List.range (n * n)).zip p.1).map (fun q => (q.1 % n, q.1 / n, q.2)), p.2)

/-- State of a script.js `makeGridAlgo` stepper with the BFS core.  Its stats
getter exposes only `visited.size` — there is no `steps` counter — and the
spec object has no `finished` property, so the harness can never set `done`. -/
structure SBFS where
  gridSize : Nat
  weights : List (Nat × Nat × Nat)
  frontier : List (Nat × Nat)
  visited : List (Nat × Nat)
  cameFrom : List ((Nat × Nat) × (Nat × Nat))
  done : Bool
deriving Repr, DecidableEq

/-- script.js `makeGridAlgo.create().init(seed)` with the BFS core:
20x20 weighted grid, start (0,0) pushed and marked visited. -/
def sBFSInit (seed : Nat) : SBFS :=
  { gridSize := 20, weights := (dataGrid 20 (seed % 2 ^ 32)).1,
    frontier := [(0, 0)], visited := [(0, 0)], cameFrom := [], done := false }

/-- The neighbour candidate with the script grid bound (no wall concept). -/
def cellIn (n : Nat) (c : Nat × Nat) (d : Int × Int) : Option (Nat × Nat) :=
  let nx : Int := (c.1 : Int) + d.1
  let ny : Int := (c.2 : Int) + d.2
  if 0 ≤ nx ∧ nx < (n : Int) ∧ 0 ≤ ny ∧ ny < (n : Int) then some (nx.toNat, ny.toNat) else none

/-- The neighbour scan of the script.js BFS core: it stops at the FIRST
in-bounds unvisited neighbour (the source `return 'visit'` sits inside the
`for` loop), returning it if any. -/
def sBFSScan (n : Nat) (visited : List (Nat × Nat)) (c : Nat × Nat) :
    List (Int × Int) → Option (Nat × Nat)
  | [] => none
  | d :: ds =>
    match cellIn n c d with
    | none => sBFSScan n visited c ds
    | some e => if e ∈ visited then sBFSScan n visited c ds else some e

/-- script.js BFS `step` through the `makeGridAlgo` harness (which never sets
`done`): dequeue the head, stop if it is the goal, otherwise enqueue at most
the first unvisited in-bounds neighbour and drop the rest. -/
def sBFSStep (s : SBFS) : SBFS :=
  if s.done then s
  else
    match s.frontier with
    | [] => s
    | c :: rest =>
      if c = (s.gridSize - 1, s.gridSize - 1) then { s with frontier := rest }
      else
        match sBFSScan s.gridSize s.visited c [(1, 0), (-1, 0), (0, 1), (0, -1)] with
        | none => { s with frontier := rest }
        | some e =>
          { s with frontier := rest ++ [e], visited := setAdd s.visited e, cameFrom := mapSet s.cameFrom e c }

/-! ## script.js Bubble Sort with the registration-closure cursors -/

/-- The Bubble Sort progress cursors of script.js.  They live in the IIFE
closure created once at `register(...)` time, so every Stepper instance of
the algorithm reads and writes this one record. -/
structure SBCore where
  i : Nat
  j : Nat
  n : Nat
deriving Repr, DecidableEq

/-- Per-instance state created by `makeArrayAlgo.create()`: dataset, stats
and highlights are per instance, unlike the core cursors. -/
structure SBInst where
  arr : List Nat
  hi : List (Nat × String)
  done : Bool
  steps : Nat
  comps : Nat
  swaps : Nat
deriving Repr, DecidableEq

/-- The two-instance system: one shared core, two live instances (the battle
layout of the source). -/
structure SBSys where
  core : SBCore
  a : SBInst
  b : SBInst
deriving Repr, DecidableEq

/-- `init(seed, size)` of one instance: fresh seeded dataset and stats, and
`core.init(arr)` resetting the SHARED cursors. -/
def sbInstInit (seed size : Nat) : SBInst :=
  { arr := (dataArray size (seed % 2 ^ 32)).1, hi := [], done := false,
    steps := 0, comps := 0, swaps := 0 }

/-- The shared-core reset done by `core.init(arr)`. -/
def sbCoreInit (inst : SBInst) : SBCore := { i := 0, j := 0, n := inst.arr.length }

/-- `A.init(seed, size)` on the system. -/
def sbInitA (sys : SBSys) (seed size : Nat) : SBSys :=
  let inst := sbInstInit seed size
  { sys with a := inst, core := sbCoreInit inst }

/-- `B.init(seed, size)` on the system. -/
def sbInitB (sys : SBSys) (seed size : Nat) : SBSys :=
  let inst := sbInstInit seed size
  { sys with b := inst, core := sbCoreInit inst }

/-- One harness `step()` of a single instance against the shared core: the
core's comparison/swap on THIS instance's array, advancing the SHARED
cursors, then `stats.steps++` and the `finished` check `i >= n - 1`. -/
def sbStep (core : SBCore) (inst : SBInst) : SBCore × SBInst :=
  if inst.done then (core, inst)
  else
    let hi1 := hset (hset inst.hi core.j "#f1c40f") (core.j + 1) "#f1c40f"
    let inst1 : SBInst := { inst with hi := hi1, comps := inst.comps + 1 }
    let cs : SBCore × SBInst :=
      if jsGt (inst1.arr.get? core.j) (inst1.arr.get? (core.j + 1)) then
        ({ core with j := core.j + 1 }, { inst1 with arr := swapAdj inst1.arr core.j, swaps := inst1.swaps + 1 })
      else
        let j' := core.j + 1
        if core.n - 1 - core.i ≤ j' then
          ({ core with j := 0, i := core.i + 1 }, inst1)
        else
          ({ core with j := j' }, inst1)
    let inst2 : SBInst := { cs.2 with steps := cs.2.steps + 1 }
    if cs.1.n - 1 ≤ cs.1.i then
      (cs.1, { inst2 with done := true })
    else
      (cs.1, inst2)

/-- `A.step()` on the system. -/
def sbStepA (sys : SBSys) : SBSys :=
  let p := sbStep sys.core sys.a
  { sys with core := p.1, a := p.2 }

/-- `B.step()` on the system. -/
def sbStepB (sys : SBSys) : SBSys :=
  let p := sbStep sys.core sys.b
  { sys with core := p.1, b := p.2 }

/-- A single-instance run for comparison: stepping one freshly initialised
instance that no other instance interferes with. -/
def sbSolo (seed size : Nat) : SBCore × SBInst :=
  (sbCoreInit (sbInstInit seed size), sbInstInit seed size)

/-! ## script.js Quick Sort core (Hoare partition around the middle element) -/

theorem jsLt_bound {a : List Nat} {i : Nat} {y : Option Nat}
    (h : jsLt (a.get? i) y = true) : i < a.length := by
  by_cases hlen : i < a.length
  · exact hlen
  · rw [List.get?_eq_none.mpr (by omega)] at h
    simp [jsLt] at h

theorem jsGt_getI_nonneg {a : List Nat} {j : Int} {y : Option Nat}
    (h : jsGt (getI a j) y = true) : 0 ≤ j := by
  by_cases hj : 0 ≤ j
  · exact hj
  · unfold getI at h
    rw [if_neg hj] at h
    simp [jsGt] at h

/-- The ascending scan `while (a[i] < p) { i++; st.comps++ }` of the script.js
Quick Sort partition; an out-of-range read is `undefined` and stops the scan. -/
def hoareUp (a : List Nat) (p : Nat) (i comps : Nat) : Nat × Nat :=
  if h : jsLt (a.get? i) (some p) = true then hoareUp a p (i + 1) (comps + 1)
  else (i, comps)
termination_by a.length - i
decreasing_by
  have := jsLt_bound h
  omega

/-- The descending scan `while (a[j] > p) { j--; st.comps++ }`; `j` may reach
`-1`, where the read is `undefined` and the scan stops. -/
def hoareDown (a : List Nat) (p : Nat) (j : Int) (comps : Nat) : Int × Nat :=
  if h : jsGt (getI a j) (some p) = true then hoareDown a p (j - 1) (comps + 1)
  else (j, comps)
termination_by (j + 1).toNat
decreasing_by
  have := jsGt_getI_nonneg h
  omega

theorem hoareUp_ge (a : List Nat) (p : Nat) (i comps : Nat) :
    i ≤ (hoareUp a p i comps).1 := by
  unfold hoareUp
  split
  · rename_i h
    have hrec := hoareUp_ge a p (i + 1) (comps + 1)
    omega
  · exact le_refl _
termination_by a.length - i
decreasing_by
  rename_i h
  have := jsLt_bound h
  omega

theorem hoareDown_le (a : List Nat) (p : Nat) (j : Int) (comps : Nat) :
    (hoareDown a p j comps).1 ≤ j := by
  unfold hoareDown
  split
  · rename_i h
    have hrec := hoareDown_le a p (j - 1) (comps + 1)
    omega
  · exact le_refl _
termination_by (j + 1).toNat
decreasing_by
  rename_i h
  have := jsGt_getI_nonneg h
  omega

/-- The outer `while (i <= j)` of the script.js Hoare partition: scan up,
scan down, swap-and-advance while the scans have not crossed.  Returns
(array, i, j, comps, swaps). -/
def hoareLoop (a : List Nat) (p : Nat) (i : Nat) (j : Int) (comps swaps : Nat) :
    List Nat × Nat × Int × Nat × Nat :=
  if hij : (i : Int) ≤ j then
    let u := hoareUp a p i comps
    let d := hoareDown a p j u.2
    if hsw : (u.1 : Int) ≤ d.1 then
      hoareLoop (swapAt a u.1 d.1.toNat) p (u.1 + 1) (d.1 - 1) d.2 (swaps + 1)
    else
      (a, u.1, d.1, d.2, swaps)
  else (a, i, j, comps, swaps)
termination_by (j - i + 1).toNat
decreasing_by
  have h1 := hoareUp_ge a p i comps
  have h2 := hoareDown_le a p j (hoareUp a p i comps).2
  omega

/-- script.js Quick Sort `part(a, l, r, st)`: Hoare partition with the pivot
`a[(l + r) >> 1]` — the MIDDLE element of the range. -/
def sQuickPart (a : List Nat) (l r : Int) (comps swaps : Nat) :
    List Nat × Nat × Int × Nat × Nat :=
  let p := a.getD ((l + r) / 2).toNat 0
  hoareLoop a p l.toNat r comps swaps

/-- State of a script.js `makeArrayAlgo` stepper with the Quick Sort core
(the work stack is the registration-closure variable; one live instance is
modelled). -/
structure SQuick where
  arr : List Nat
  stack : List (Int × Int)
  done : Bool
  steps : Nat
  comps : Nat
  swaps : Nat
  hi : List (Nat × String)
deriving Repr, DecidableEq

/-- script.js Quick Sort `init`: dataset plus `stack = [[0, n-1]]`. -/
def sQuickInit (seed size : Nat) : SQuick :=
  let arr := (dataArray size (seed % 2 ^ 32)).1
  { arr := arr, stack := [(0, (arr.length : Int) - 1)], done := false,
    steps := 0, comps := 0, swaps := 0, hi := [] }

/-- script.js Quick Sort `step` through the harness: pop one range, Hoare
partition around the middle element when non-trivial, push `[l, j]` then
`[i, r]` (so `[i, r]` ends on top), then `steps++` and the `finished` check
`stack.length === 0`. -/
def sQuickStep (s : SQuick) : SQuick :=
  if s.done then s
  else
    let s1 : SQuick :=
      match s.stack with
      | [] => s
      | (l, r) :: rest =>
        if r ≤ l then { s with stack := rest }
        else
          let q := sQuickPart s.arr l r s.comps s.swaps
          let push1 := if l < q.2.2.1 then [(l, q.2.2.1)] else []
          let push2 := if (q.2.1 : Int) < r then [((q.2.1 : Int), r)] else []
          { s with arr := q.1, stack := push2 ++ push1 ++ rest, comps := q.2.2.2.1, swaps := q.2.2.2.2 + 1 }
    let s2 : SQuick := { s1 with steps := s1.steps + 1 }
    if s2.stack = [] then { s2 with done := true } else s2

/-! ## Small facts used by the claim theorems -/

theorem mainSortArray_length (st n : Nat) : (mainSortArray st n).length = n := by
  induction n generalizing st with
  | zero => rfl
  | succ n ih => simp [mainSortArray, ih]

theorem dataArray_length (n a : Nat) : (dataArray n a).1.length = n := by
  induction n generalizing a with
  | zero => rfl
  | succ n ih => simp [dataArray, ih]

theorem mBubbleStep_steps {s : MBubble} (h : s.done = false) :
    (mBubbleStep s).stats.steps = s.stats.steps + 1 := by
  by_cases hi : s.arr.length - 1 ≤ s.i
  · exact (mBubbleStep_finish h hi).2.2.2.2
  · exact (mBubbleStep_char h (by omega)).2.2.1

theorem mQuickStep_steps {s : MQuick} (h : s.done = false) :
    (mQuickStep s).stats.steps = s.stats.steps + 1 := by
  obtain ⟨arr0, stk0, piv0, done0, st0, hi0⟩ := s
  dsimp only at h ⊢
  subst h
  unfold mQuickStep
  rw [if_neg (by simp)]
  dsimp only
  match stk0 with
  | [] => rfl
  | (l, r) :: rest =>
    dsimp only
    by_cases hlr : l < r
    · rw [if_pos hlr]
    · rw [if_neg hlr]

theorem mBFSStep_steps {s : MBFS} (h : s.done = false) (hf : s.frontier ≠ []) :
    (mBFSStep s).stats.steps = s.stats.steps + 1 := by
  obtain ⟨w, f, v, cf, p, d0, st0⟩ := s
  dsimp only at h hf ⊢
  subst h
  match f, hf with
  | c :: rest, _ =>
    unfold mBFSStep
    rw [if_neg (by simp)]
    dsimp only
    by_cases hg : c = (28, 28)
    · rw [if_pos hg]
      rfl
    · rw [if_neg hg]

theorem mBFSStep_steps_mono (s : MBFS) :
    s.stats.steps ≤ (mBFSStep s).stats.steps := by
  by_cases hd : s.done = true
  · rw [mBFSStep_done hd]
  · have h : s.done = false := by
      cases hb : s.done with
      | true => exact absurd hb hd
      | false => rfl
    cases hf : s.frontier with
    | nil => rw [mBFSStep_exhaust h hf]
    | cons c rest =>
      rw [mBFSStep_steps h (by rw [hf]; exact List.cons_ne_nil _ _)]
      omega

theorem sLinStep_steps {s : SLin} (h : s.done = false) :
    (sLinStep s).steps = s.steps + 1 := by
  unfold sLinStep
  rw [if_neg (by simp [h])]
  by_cases hl : s.arr.length ≤ s.i
  · simp only [if_pos hl]
  · simp only [if_neg hl]
    split <;> rfl

theorem mInOrderStep_root (s : MInOrder) : (mInOrderStep s).root = s.root := by
  unfold mInOrderStep
  by_cases hd : s.done
  · rw [if_pos hd]
  · rw [if_neg hd]
    dsimp only
    cases s.cur with
    | node l v r => rfl
    | leaf =>
      cases s.stack with
      | nil => rfl
      | cons t rest => cases t <;> rfl

theorem mInOrderStepN_root (k : Nat) (s : MInOrder) :
    (stepN mInOrderStep k s).root = s.root := by
  induction k generalizing s with
  | zero => rfl
  | succ k ih => rw [stepN_succ, ih, mInOrderStep_root]

theorem mInOrderInit_root (seed size : Nat) :
    (mInOrderInit seed size).root = buildTree (mainTreeValues seed (min size 31)) := rfl

/-! ## Claim theorems -/

/-- Lockstep battle-mode stepping of two main.js BubbleSort instances. -/
def mPairStep (p : MBubble × MBubble) : MBubble × MBubble :=
  (mBubbleStep p.1, mBubbleStep p.2)

theorem mPairStep_split (k : Nat) (x y : MBubble) :
    stepN mPairStep k (x, y) = (stepN mBubbleStep k x, stepN mBubbleStep k y) := by
  induction k generalizing x y with
  | zero => rfl
  | succ k ih => rw [stepN_succ, stepN_succ, stepN_succ]; exact ih _ _

/-- C1 (counterexample).  The script.js registry Linear Search stepper never
reaches `finished === true`: its core's `finished()` is constantly false, so
no number of `step()` calls after `init(1, 3)` ever finishes -- the claimed
bounded-call termination fails for this Stepper. -/
theorem claim1_counterexample_script_linear_search :
    ¬ ∃ B : Nat, (stepN sLinStep B (sLinInit 1 3)).done = true := by
  rintro ⟨B, hB⟩
  rw [sLin_never_done (sLinInit 1 3) rfl B] at hB
  exact Bool.false_ne_true hB

/-- C1 (amended).  For the main.js class-based BubbleSort stepper, for every
seed and every size n ≥ 1, `step()` reaches `finished === true` within
n(n-1)/2 + n calls; size 0 needs exactly one call (one more than the claimed
bound of 0). -/
theorem claim1_bubble_terminates_within_bound :
    (∀ seed n : Nat, 1 ≤ n →
      (stepN mBubbleStep (n * (n - 1) / 2 + n) (mBubbleInit seed n)).done = true) ∧
    (∀ seed : Nat, (stepN mBubbleStep 1 (mBubbleInit seed 0)).done = true) := by
  constructor
  · intro seed n h1
    have hlen : (mainSortArray seed n).length = n := mainSortArray_length seed n
    apply bubble_stepN_done _ _ (bubbleInv_init _)
    have hm := @bubbleMeasure_init (mainSortArray seed n) (by omega)
    rw [hlen] at hm
    exact hm
  · intro seed
    apply bubble_stepN_done _ _ (bubbleInv_init _)
    unfold bubbleMeasure mBubbleInitArr
    rw [if_neg (by simp)]
    have hlen : (mainSortArray seed 0).length = 0 := mainSortArray_length seed 0
    simp [hlen]

theorem claim1_bubble_terminates_within_bound_witness :
    1 ≤ 5 ∧ (stepN mBubbleStep 15 (mBubbleInit 7 5)).done = true :=
  ⟨by decide, claim1_bubble_terminates_within_bound.1 7 5 (by decide)⟩

/-- C2.  For every embedded Stepper, in every state with `finished === true`
a further `step()` call is a no-op: the state (dataset, stats counters and
highlight map included) is returned unchanged. -/
theorem claim2_step_after_finished_noop :
    (∀ s : MBubble, s.done = true → mBubbleStep s = s) ∧
    (∀ s : MQuick, s.done = true → mQuickStep s = s) ∧
    (∀ s : MBFS, s.done = true → mBFSStep s = s) ∧
    (∀ s : MInOrder, s.done = true → mInOrderStep s = s) ∧
    (∀ s : SLin, s.done = true → sLinStep s = s) ∧
    (∀ s : SInterp, s.done = true → sInterpStep s = s) ∧
    (∀ s : PInterp, s.done = true → pInterpStep s = s) ∧
    (∀ s : SBFS, s.done = true → sBFSStep s = s) ∧
    (∀ s : SQuick, s.done = true → sQuickStep s = s) ∧
    (∀ (core : SBCore) (inst : SBInst), inst.done = true → sbStep core inst = (core, inst)) := by
  refine ⟨fun s h => mBubbleStep_done h, fun s h => mQuickStep_done h,
    fun s h => mBFSStep_done h, fun s h => mInOrderStep_done h,
    ?_, ?_, ?_, ?_, ?_, ?_⟩
  · intro s h; simp [sLinStep, h]
  · intro s h; simp [sInterpStep, h]
  · intro s h; simp [pInterpStep, h]
  · intro s h; simp [sBFSStep, h]
  · intro s h; simp [sQuickStep, h]
  · intro core inst h; simp [sbStep, h]

theorem claim2_step_after_finished_noop_witness :
    (stepN mBubbleStep 15 (mBubbleInit 7 5)).done = true ∧
    mBubbleStep (stepN mBubbleStep 15 (mBubbleInit 7 5)) = stepN mBubbleStep 15 (mBubbleInit 7 5) :=
  ⟨by decide, claim2_step_after_finished_noop.1 _ (by decide)⟩

/-- C3.  Whenever the main.js BubbleSort stepper (the claim's cited sorting
Stepper) reaches `finished === true`, the array is sorted ascending and is a
permutation of the dataset produced by `init(seed, size)`. -/
theorem claim3_bubble_sorted_permutation (seed size k : Nat)
    (h : (stepN mBubbleStep k (mBubbleInit seed size)).done = true) :
    List.Pairwise (· ≤ ·) (stepN mBubbleStep k (mBubbleInit seed size)).arr ∧
    (stepN mBubbleStep k (mBubbleInit seed size)).arr.Perm (mBubbleInit seed size).arr := by
  constructor
  · exact bubbleInv_done_sorted (bubbleInv_stepN k _ (bubbleInv_init _)) h
  · exact bubble_stepN_perm k _

theorem claim3_bubble_sorted_permutation_witness :
    (stepN mBubbleStep 15 (mBubbleInit 7 5)).done = true ∧
    List.Pairwise (· ≤ ·) (stepN mBubbleStep 15 (mBubbleInit 7 5)).arr ∧
    (stepN mBubbleStep 15 (mBubbleInit 7 5)).arr.Perm (mBubbleInit 7 5).arr :=
  ⟨by decide, claim3_bubble_sorted_permutation 7 5 15 (by decide)⟩

/-- C4 (counterexample).  Two independently constructed script.js Bubble Sort
instances from the same `(seed, size) = (1, 3)` do NOT produce identical
stats after each corresponding `step()`: after the first interleaved round
(A steps, then B steps, battle layout), A has performed a swap and B has not,
because both instances drive the cursors of the one shared registration
closure. -/
theorem claim4_counterexample_shared_core_stats :
    let sys0 := sbInitB (sbInitA ⟨⟨0, 0, 0⟩, ⟨[], [], false, 0, 0, 0⟩, ⟨[], [], false, 0, 0, 0⟩⟩ 1 3) 1 3
    let r1 := sbStepB (sbStepA sys0)
    (r1.a.steps, r1.a.comps, r1.a.swaps) ≠ (r1.b.steps, r1.b.comps, r1.b.swaps) := by
  decide

/-- C4 (amended).  For the main.js class-based BubbleSort, stepping two
independently constructed instances of the same `(seed, size)` in lockstep
(battle mode) leaves each instance exactly equal to its own solo run, so the
two produce identical states -- stats included -- after each corresponding
`step()`, and identical datasets at every point. -/
theorem claim4_main_bubble_deterministic (seed size k : Nat) :
    (stepN mPairStep k (mBubbleInit seed size, mBubbleInit seed size)).1 =
      (stepN mPairStep k (mBubbleInit seed size, mBubbleInit seed size)).2 ∧
    (stepN mPairStep k (mBubbleInit seed size, mBubbleInit seed size)).1 =
      stepN mBubbleStep k (mBubbleInit seed size) := by
  rw [mPairStep_split]
  exact ⟨rfl, rfl⟩

/-- C5 (counterexample).  main.js BFS with seed 253 (all four neighbours of
the start walled in): the second `step()` call is made while
`finished === false`, yet `stats.steps` does not increase during that call --
the frontier-exhaustion branch finishes without counting a step. -/
theorem claim5_counterexample_bfs_final_step :
    (stepN mBFSStep 1 (mBFSInit 253)).done = false ∧
    (stepN mBFSStep 2 (mBFSInit 253)).stats.steps =
      (stepN mBFSStep 1 (mBFSInit 253)).stats.steps ∧
    (stepN mBFSStep 2 (mBFSInit 253)).done = true := by
  refine ⟨by decide, by decide, by decide⟩

/-- C5 (amended).  For the main.js BubbleSort and QuickSort steppers and the
script.js functional-registry Linear Search stepper, `stats.steps` increases
by exactly one on every `step()` call made while `finished === false`; for
the main.js BFS stepper it increases by exactly one on every non-finished
call that still has a frontier, while the frontier-exhaustion call finishes
the run without counting a step -- and in these steppers `steps` never
decreases or resets mid-run.  (The repo-wide strict-increase phrasing is
limited to these steppers: elsewhere, e.g. part_000 CocktailSort returning
before its `stats.steps++` on swap-free passes, even the per-call increment
fails.) -/
theorem claim5_steps_strictly_increase :
    (∀ s : MBubble, s.done = false → (mBubbleStep s).stats.steps = s.stats.steps + 1) ∧
    (∀ s : MQuick, s.done = false → (mQuickStep s).stats.steps = s.stats.steps + 1) ∧
    (∀ s : SLin, s.done = false → (sLinStep s).steps = s.steps + 1) ∧
    (∀ s : MBFS, s.done = false → s.frontier ≠ [] →
      (mBFSStep s).stats.steps = s.stats.steps + 1) ∧
    (∀ s : MBFS, s.done = false → s.frontier = [] →
      mBFSStep s = { s with done := true }) ∧
    (∀ s : MBFS, s.stats.steps ≤ (mBFSStep s).stats.steps) := by
  exact ⟨fun s h => mBubbleStep_steps h, fun s h => mQuickStep_steps h,
    fun s h => sLinStep_steps h, fun s h hf => mBFSStep_steps h hf,
    fun s h hf => mBFSStep_exhaust h hf, mBFSStep_steps_mono⟩

theorem claim5_steps_strictly_increase_witness :
    (mBubbleInit 7 5).done = false ∧
    (mBubbleStep (mBubbleInit 7 5)).stats.steps = (mBubbleInit 7 5).stats.steps + 1 :=
  ⟨by decide, claim5_steps_strictly_increase.1 _ (by decide)⟩

/-- C6 (counterexample).  The script.js registry Quick Sort does not follow
the claimed Lomuto scheme: with `init(1, 3)` the dataset is `[63, 1, 53]`
with work range `[0, 2]`, and one `step()` yields `[1, 63, 53]` -- an array
in which NO position can be the Lomuto pivot position (holding the old last
element 53, with everything left of it strictly smaller and everything right
of it at least as large).  The core actually partitions Hoare-style around
the middle element `a[(l+r)>>1] = 1`. -/
theorem claim6_counterexample_script_quick_pivot :
    (sQuickInit 1 3).arr = [63, 1, 53] ∧
    (sQuickInit 1 3).stack = [(0, 2)] ∧
    (sQuickStep (sQuickInit 1 3)).arr = [1, 63, 53] ∧
    ∀ pi, pi < 3 →
      ¬(nth (sQuickStep (sQuickInit 1 3)).arr pi = nth [63, 1, 53] 2 ∧
        (∀ k, k < pi → nth (sQuickStep (sQuickInit 1 3)).arr k <
          nth (sQuickStep (sQuickInit 1 3)).arr pi) ∧
        (∀ k, k < 3 → pi < k → nth (sQuickStep (sQuickInit 1 3)).arr pi ≤
          nth (sQuickStep (sQuickInit 1 3)).arr k)) := by
  have h0 : sQuickInit 1 3 =
      { arr := [63, 1, 53], stack := [(0, 2)], done := false,
        steps := 0, comps := 0, swaps := 0, hi := [] } := by decide
  have harr : (sQuickStep (sQuickInit 1 3)).arr = [1, 63, 53] := by
    rw [h0]
    simp [sQuickStep, sQuickPart, hoareLoop, hoareUp, hoareDown, jsLt, jsGt,
      getI, swapAt, nth]
  rw [harr, h0]
  refine ⟨rfl, rfl, rfl, ?_⟩
  decide

/-- C6 (amended).  Each main.js QuickSort `step()` on a non-trivial popped
range `(low, high)` fully partitions it with the Lomuto scheme -- the pivot
is the last element `arr[high]` and lands at position pi, an element moves
left of pi exactly when it is strictly less than the pivot, the rest of the
range ends at least the pivot, the array outside the range is untouched --
and pushes the two sub-ranges `[low, pi-1]` and `[pi+1, high]`. -/
theorem claim6_main_quicksort_lomuto {s : MQuick} {low high : Int}
    {rest : List (Int × Int)}
    (h : s.done = false) (hst : s.stack = (low, high) :: rest)
    (h0 : 0 ≤ low) (hlh : low < high) (hhi : high.toNat < s.arr.length) :
    ∃ pi : Nat,
      (mQuickStep s).stack = ((pi : Int) + 1, high) :: (low, (pi : Int) - 1) :: rest ∧
      low.toNat ≤ pi ∧ pi ≤ high.toNat ∧
      (mQuickStep s).arr.length = s.arr.length ∧
      (mQuickStep s).arr.Perm s.arr ∧
      nth (mQuickStep s).arr pi = nth s.arr high.toNat ∧
      (∀ k, low.toNat ≤ k → k < pi → nth (mQuickStep s).arr k < nth (mQuickStep s).arr pi) ∧
      (∀ k, pi < k → k ≤ high.toNat → nth (mQuickStep s).arr pi ≤ nth (mQuickStep s).arr k) ∧
      (∀ k, k < low.toNat ∨ high.toNat < k → (mQuickStep s).arr.get? k = s.arr.get? k) ∧
      (mQuickStep s).done = false ∧
      (mQuickStep s).stats.steps = s.stats.steps + 1 :=
  mQuickStep_partition h hst h0 hlh hhi

theorem claim6_main_quicksort_lomuto_witness :
    ∃ pi : Nat,
      (mQuickStep (mQuickInit 1 3)).stack = ((pi : Int) + 1, 2) :: (0, (pi : Int) - 1) :: [] ∧
      (0 : Int).toNat ≤ pi ∧ pi ≤ (2 : Int).toNat ∧
      (mQuickStep (mQuickInit 1 3)).arr.length = (mQuickInit 1 3).arr.length ∧
      (mQuickStep (mQuickInit 1 3)).arr.Perm (mQuickInit 1 3).arr ∧
      nth (mQuickStep (mQuickInit 1 3)).arr pi = nth (mQuickInit 1 3).arr (2 : Int).toNat ∧
      (∀ k, (0 : Int).toNat ≤ k → k < pi →
        nth (mQuickStep (mQuickInit 1 3)).arr k < nth (mQuickStep (mQuickInit 1 3)).arr pi) ∧
      (∀ k, pi < k → k ≤ (2 : Int).toNat →
        nth (mQuickStep (mQuickInit 1 3)).arr pi ≤ nth (mQuickStep (mQuickInit 1 3)).arr k) ∧
      (∀ k, k < (0 : Int).toNat ∨ (2 : Int).toNat < k →
        (mQuickStep (mQuickInit 1 3)).arr.get? k = (mQuickInit 1 3).arr.get? k) ∧
      (mQuickStep (mQuickInit 1 3)).done = false ∧
      (mQuickStep (mQuickInit 1 3)).stats.steps = (mQuickInit 1 3).stats.steps + 1 :=
  claim6_main_quicksort_lomuto (by decide) (by decide) (by decide) (by decide) (by decide)

/-- C7 (counterexample).  The script.js registry BFS does not enqueue every
eligible neighbour within one `step()`: from `init(1)` the dequeued start
cell (0,0) has the in-bounds, unvisited neighbour (0,1) (the script grid has
no walls), yet after one `step()` that neighbour is neither in the frontier
nor visited -- only the first unvisited neighbour (1,0) was enqueued. -/
theorem claim7_counterexample_script_bfs_single_push :
    (sBFSInit 1).frontier = [(0, 0)] ∧
    ((0, 1) : Nat × Nat) ∉ (sBFSInit 1).visited ∧
    (sBFSStep (sBFSInit 1)).frontier = [(1, 0)] ∧
    ((0, 1) : Nat × Nat) ∉ (sBFSStep (sBFSInit 1)).frontier ∧
    ((0, 1) : Nat × Nat) ∉ (sBFSStep (sBFSInit 1)).visited := by
  refine ⟨by decide, by decide, by decide, by decide, by decide⟩

/-- C7 (amended).  Each main.js BFS `step()` on a non-goal head removes
exactly that one entry from the FIFO frontier and, within the same call,
enqueues every in-bounds, non-wall, not-yet-visited neighbour of it in the
fixed order (0,1),(1,0),(0,-1),(-1,0), marking each visited. -/
theorem claim7_main_bfs_enqueues_all {s : MBFS} {c : Nat × Nat}
    {rest : List (Nat × Nat)}
    (h : s.done = false) (hf : s.frontier = c :: rest) (hg : c ≠ (28, 28)) :
    (mBFSStep s).frontier = rest ++ bfsClaimNeighbors s.walls s.visited c ∧
    (∀ e, e ∈ (mBFSStep s).visited ↔
      e ∈ s.visited ∨ e ∈ bfsClaimNeighbors s.walls s.visited c) ∧
    (mBFSStep s).done = false ∧
    (mBFSStep s).stats.steps = s.stats.steps + 1 ∧
    (mBFSStep s).stats.nodesVisited = s.stats.nodesVisited + 1 :=
  mBFSStep_expand h hf hg

theorem claim7_main_bfs_enqueues_all_witness :
    (mBFSStep (mBFSInit 1)).frontier =
      [] ++ bfsClaimNeighbors (mBFSInit 1).walls (mBFSInit 1).visited (1, 1) ∧
    (∀ e, e ∈ (mBFSStep (mBFSInit 1)).visited ↔
      e ∈ (mBFSInit 1).visited ∨
        e ∈ bfsClaimNeighbors (mBFSInit 1).walls (mBFSInit 1).visited (1, 1)) ∧
    (mBFSStep (mBFSInit 1)).done = false ∧
    (mBFSStep (mBFSInit 1)).stats.steps = (mBFSInit 1).stats.steps + 1 ∧
    (mBFSStep (mBFSInit 1)).stats.nodesVisited = (mBFSInit 1).stats.nodesVisited + 1 :=
  claim7_main_bfs_enqueues_all (by decide) (by decide) (by decide)

/-- C8 (counterexample).  The main.js QuickSort stepper on a size-1 input
needs TWO `step()` calls to finish, not one: the first call pops the trivial
range `[0, 0]` (stack becomes empty but `finished` stays false), and only the
second call, seeing the empty stack, sets `finished`. -/
theorem claim8_counterexample_main_quick_two_calls :
    (mQuickInit 1 1).arr.length = 1 ∧
    (stepN mQuickStep 1 (mQuickInit 1 1)).done = false ∧
    (stepN mQuickStep 2 (mQuickInit 1 1)).done = true := by
  refine ⟨by decide, by decide, by decide⟩

/-- C8 (amended).  Interpolation search never divides by a zero value range:
the script.js core's guard `l > r || a[l] === a[r]` makes the step a pure
`steps++` no-op whenever the bounds hold equal values, before any interpolated
position is computed, and the part_000 InterpolationSearch finishes degenerate
inputs of size 0 and 1 in one `step()` call (as does the main.js BubbleSort);
but not EVERY stepper finishes such inputs within one call. -/
theorem claim8_degenerate_and_interp_guard :
    (∀ s : SInterp, s.done = false → getI s.arr s.l = getI s.arr s.r →
      sInterpStep s = { s with steps := s.steps + 1 }) ∧
    (∀ seed : Nat, (pInterpStep (pInterpInit seed 0)).done = true) ∧
    (∀ seed : Nat, (pInterpStep (pInterpInit seed 1)).done = true ∧
      (pInterpStep (pInterpInit seed 1)).found = true) ∧
    (∀ seed : Nat, (stepN mBubbleStep 1 (mBubbleInit seed 0)).done = true) ∧
    (∀ seed : Nat, (stepN mBubbleStep 1 (mBubbleInit seed 1)).done = true) := by
  refine ⟨fun s h heq => sInterpStep_guard h heq, ?_, ?_, ?_, ?_⟩
  · intro seed
    simp [pInterpInit, pInterpStep, List.getD]
  · intro seed
    have hst : lcgNext seed < 2 ^ 32 := Nat.mod_lt _ (by norm_num)
    have hidx : (lcgInt seed 0 (1 - 1)).2 = 0 := by
      show 0 + lcgNext seed * (0 + 1 - 0) / 2 ^ 32 = 0
      simp only [Nat.zero_add, Nat.sub_zero, Nat.mul_one]
      exact Nat.div_eq_of_lt hst
    have h0 : pInterpInit seed 1 =
        { arr := [1], target := 1, low := 0, high := 0, found := false,
          foundIndex := -1, done := false,
          stats := { comparisons := 0, accesses := 0, steps := 0 },
          highlights := [] } := by
      unfold pInterpInit
      dsimp only
      rw [hidx]
      decide
    rw [h0]
    exact ⟨by decide, by decide⟩
  · intro seed
    apply bubble_stepN_done _ _ (bubbleInv_init _)
    unfold bubbleMeasure mBubbleInitArr
    rw [if_neg (by simp)]
    have hlen : (mainSortArray seed 0).length = 0 := mainSortArray_length seed 0
    simp [hlen]
  · intro seed
    apply bubble_stepN_done _ _ (bubbleInv_init _)
    unfold bubbleMeasure mBubbleInitArr
    rw [if_neg (by simp)]
    have hlen : (mainSortArray seed 1).length = 1 := mainSortArray_length seed 1
    simp [hlen]

theorem claim8_degenerate_and_interp_guard_witness :
    ({ arr := [5, 5], target := 7, l := 0, r := 1, done := false, steps := 3, comps := 0, hi := [] } : SInterp).done = false ∧
    getI ([5, 5] : List Nat) 0 = getI ([5, 5] : List Nat) 1 ∧
    sInterpStep { arr := [5, 5], target := 7, l := 0, r := 1, done := false, steps := 3, comps := 0, hi := [] } =
      { arr := [5, 5], target := 7, l := 0, r := 1, done := false, steps := 4, comps := 0, hi := [] } :=
  ⟨by decide, by decide,
    claim8_degenerate_and_interp_guard.1
      { arr := [5, 5], target := 7, l := 0, r := 1, done := false, steps := 3, comps := 0, hi := [] }
      (by decide) (by decide)⟩

/-- C9.  Whenever the main.js InOrderTraversal stepper reaches
`finished === true`, its `traversalOrder` is exactly the in-order sequence of
the BST built by repeated (duplicate-dropping) insertion from the generated
values; that sequence is strictly increasing, duplicate-free, and contains a
value iff it was generated. -/
theorem claim9_inorder_traversal (seed size k : Nat)
    (hd : (stepN mInOrderStep k (mInOrderInit seed size)).done = true) :
    (stepN mInOrderStep k (mInOrderInit seed size)).order =
      inorder (buildTree (mainTreeValues seed (min size 31))) ∧
    List.Pairwise (· < ·) (stepN mInOrderStep k (mInOrderInit seed size)).order ∧
    (stepN mInOrderStep k (mInOrderInit seed size)).order.Nodup ∧
    (∀ x, x ∈ (stepN mInOrderStep k (mInOrderInit seed size)).order ↔
      x ∈ mainTreeValues seed (min size 31)) := by
  have hinv := inOrderInv_stepN k _ (inOrderInv_init seed size)
  have hout := inOrder_done_output hinv hd
  have hroot : (stepN mInOrderStep k (mInOrderInit seed size)).root =
      buildTree (mainTreeValues seed (min size 31)) := by
    rw [mInOrderStepN_root, mInOrderInit_root]
  rw [hout, hroot]
  have hsorted := inorder_sorted (buildTree_bst (mainTreeValues seed (min size 31)))
  refine ⟨rfl, hsorted, hsorted.imp (fun h => Nat.ne_of_lt h), fun x => buildTree_mem _ x⟩

theorem claim9_inorder_traversal_witness :
    (stepN mInOrderStep 20 (mInOrderInit 1 3)).done = true ∧
    ((stepN mInOrderStep 20 (mInOrderInit 1 3)).order =
      inorder (buildTree (mainTreeValues 1 (min 3 31))) ∧
    List.Pairwise (· < ·) (stepN mInOrderStep 20 (mInOrderInit 1 3)).order ∧
    (stepN mInOrderStep 20 (mInOrderInit 1 3)).order.Nodup ∧
    (∀ x, x ∈ (stepN mInOrderStep 20 (mInOrderInit 1 3)).order ↔
      x ∈ mainTreeValues 1 (min 3 31))) :=
  ⟨by decide, claim9_inorder_traversal 1 3 20 (by decide)⟩

theorem sbStep_core_moves {core : SBCore} {inst : SBInst}
    (hd : inst.done = false) : (sbStep core inst).1 ≠ core := by
  unfold sbStep
  rw [if_neg (by simp [hd])]
  dsimp only
  by_cases h1 : jsGt (inst.arr.get? core.j) (inst.arr.get? (core.j + 1)) = true
  · rw [if_pos h1]
    dsimp only
    by_cases h2 : core.n - 1 ≤ core.i
    · rw [if_pos h2]
      intro h
      have := congrArg SBCore.j h
      dsimp at this
      omega
    · rw [if_neg h2]
      intro h
      have := congrArg SBCore.j h
      dsimp at this
      omega
  · rw [if_neg h1]
    by_cases h3 : core.n - 1 - core.i ≤ core.j + 1
    · rw [if_pos h3]
      dsimp only
      by_cases h2 : core.n - 1 ≤ core.i + 1
      · rw [if_pos h2]
        intro h
        have := congrArg SBCore.i h
        dsimp at this
        omega
      · rw [if_neg h2]
        intro h
        have := congrArg SBCore.i h
        dsimp at this
        omega
    · rw [if_neg h3]
      dsimp only
      by_cases h2 : core.n - 1 ≤ core.i
      · rw [if_pos h2]
        intro h
        have := congrArg SBCore.j h
        dsimp at this
        omega
      · rw [if_neg h2]
        intro h
        have := congrArg SBCore.j h
        dsimp at this
        omega

/-- C10.  In the functional-registry script.js, the progress cursors live in
the one closure created at registration, shared by all instances: after `A`
and `B` are both initialised from the same `(seed, size)`, one `step()` on
`A` changes the shared core while leaving `B`'s own instance record
untouched -- so the progress state `B` observes has changed -- and a later
`init()` on `B` resets the shared core that `A` observes back to the
freshly-initialised cursors. -/
theorem claim10_shared_closure (sys : SBSys) (seed size : Nat) :
    (sbStepA (sbInitB (sbInitA sys seed size) seed size)).core ≠
      (sbInitB (sbInitA sys seed size) seed size).core ∧
    (sbStepA (sbInitB (sbInitA sys seed size) seed size)).b =
      (sbInitB (sbInitA sys seed size) seed size).b ∧
    (sbInitB (sbStepA (sbInitB (sbInitA sys seed size) seed size)) seed size).core =
      sbCoreInit (sbInstInit seed size) := by
  refine ⟨?_, rfl, rfl⟩
  intro h
  have h2 : (sbStep (sbInitB (sbInitA sys seed size) seed size).core
      (sbInitB (sbInitA sys seed size) seed size).a).1 =
      (sbInitB (sbInitA sys seed size) seed size).core := h
  exact sbStep_core_moves rfl h2

end AlgoViz
